import Mathlib

/-!
Verification development for the PookieDB embedded document store
(`src/index.js`, class `Database`).  The store keeps records (open maps of
field name to scalar value) in a `Map` keyed by id, maintains a secondary
index `field -> value -> Set of ids`, caches query results, and checkpoints
the record set to a snapshot file.

The shallow embedding below models JavaScript `Map`s and `Set`s as
association lists / lists with the same lookup, insertion-in-place and
deletion semantics.  Scalar values are modelled by `Value`
(null / boolean / integer / string), the value universe the design document
gives for field values; on these, JavaScript strict equality `===` is
structural equality, which is what `DecidableEq Value` provides.
-/

set_option maxHeartbeats 1000000

namespace PookieDB

/-- A JavaScript scalar value: `null`, booleans, numbers (modelled as
integers) and strings. -/
inductive Value where
  | vNull : Value
  | vBool (b : Bool) : Value
  | vNum (n : Int) : Value
  | vStr (s : String) : Value
deriving DecidableEq, Repr

/-- JavaScript truthiness of a scalar value (`null`, `false`, `0` and `""`
are falsy). -/
def truthy : Value → Bool
  | .vNull => false
  | .vBool b => b
  | .vNum n => n != 0
  | .vStr s => s != ""

/-- A JavaScript `Map` (also used for plain objects viewed through
`Object.entries`): an association list in insertion order. -/
abbrev JMap (K V : Type) := List (K × V)

/-- A record is an open map of field name to value (a plain JS object). -/
abbrev Rec := JMap String Value

/-- Model of `Map.prototype.get` / property read: first binding of the key. -/
def jget {K V : Type} [DecidableEq K] : JMap K V → K → Option V
  | [], _ => none
  | (k', v) :: t, k => if k' = k then some v else jget t k

/-- Model of `Map.prototype.set`: overwrite in place if the key is present,
otherwise append at the end (JS `Map` keeps insertion order). -/
def jset {K V : Type} [DecidableEq K] : JMap K V → K → V → JMap K V
  | [], k, v => [(k, v)]
  | (k', v') :: t, k, v =>
    if k' = k then (k', v) :: t else (k', v') :: jset t k v

/-- Model of `Map.prototype.delete`: remove the binding of the key. -/
def jdel {K V : Type} [DecidableEq K] (m : JMap K V) (k : K) : JMap K V :=
  m.filter (fun p => p.1 ≠ k)

/-- Model of `Map.prototype.has`. -/
def jhas {K V : Type} [DecidableEq K] (m : JMap K V) (k : K) : Bool :=
  (jget m k).isSome

/-- A JavaScript `Set`: a duplicate-free list in insertion order. -/
abbrev JSet (A : Type) := List A

/-- Model of `Set.prototype.add`: append if not already a member. -/
def sadd {A : Type} [DecidableEq A] (s : JSet A) (a : A) : JSet A :=
  if a ∈ s then s else s ++ [a]

/-- Model of `Set.prototype.delete`: remove the element. -/
def sdel {A : Type} [DecidableEq A] (s : JSet A) (a : A) : JSet A :=
  s.filter (fun x => x ≠ a)

/-- The secondary index: `field name -> (field value -> set of record ids)`.
Ids are values because `create` uses whatever truthy `obj.id` it is given
as the `Map` key. -/
abbrev Idx := JMap String (JMap Value (JSet Value))

/-- Lookup of the id set stored for a (field, value) pair:
`indexes.get(key)?.get(value)`. -/
def idxGet (idx : Idx) (k : String) (v : Value) : Option (JSet Value) :=
  (jget idx k).bind (fun m => jget m v)

/-- The three-line index insertion pattern of `create` / `update` /
`buildIndexChunk` (src/index.js lines 216-224, 257-265, 104-106):
get-or-create the per-field map, get-or-create the per-value set, add the
id.  Writing the updated map back with `jset` is the functional image of
the in-place mutation. -/
def idxAdd (idx : Idx) (k : String) (v : Value) (i : Value) : Idx :=
  let m := (jget idx k).getD []
  let s := (jget m v).getD []
  jset idx k (jset m v (sadd s i))

/-- The index removal pattern of `update` / `delete` (src/index.js lines
244-249, 328-333): `indexMap?.has(value)` guard, then delete the id from
the set. -/
def idxRemove (idx : Idx) (k : String) (v : Value) (i : Value) : Idx :=
  match jget idx k with
  | none => idx
  | some m =>
    match jget m v with
    | none => idx
    | some s => jset idx k (jset m v (sdel s i))

/-- The entry-creation half of the merge loop in `buildIndexes`
(src/index.js lines 193-199): ensure `indexes` has the key and the value
before ids are copied in. -/
def ensureEntry (idx : Idx) (k : String) (v : Value) : Idx :=
  let m := (jget idx k).getD []
  let m2 := if jhas m v then m else jset m v []
  jset idx k m2

/-- Membership `id ∈ indexes.get(k).get(v)`: the (field, value) entry exists and
contains the id. -/
def memIdx (idx : Idx) (k : String) (v : Value) (i : Value) : Prop :=
  ∃ s, idxGet idx k v = some s ∧ i ∈ s

/-- The (field, value) entry exists in the index (possibly as an empty
set — `update`/`delete` drain sets but never remove them). -/
def entryPresent (idx : Idx) (k : String) (v : Value) : Prop :=
  (idxGet idx k v).isSome

/-! ## Database state and operations -/

/-- The in-memory state of a `Database` instance: record store, secondary
index, result cache, dirty flag, last-save timestamp and the configured
batch size (`options.batchSize`).  The result cache is modelled as the
key-to-result map held by the LRU cache; its capacity/TTL eviction policy
lives in the external `lru-cache` library, outside this repository. -/
structure DB where
  data : JMap Value Rec
  indexes : Idx
  cache : JMap String (List Rec)
  dirty : Bool
  lastSave : Nat
  batchSize : Nat
deriving DecidableEq, Repr

/-- The on-disk state relevant to `save`: the canonical snapshot file and
the transient `<schema>.tmp` sibling, each holding an encoded record
sequence when present. -/
structure FS where
  canonical : Option (List Rec)
  temp : Option (List Rec)
deriving DecidableEq, Repr

/-- A database instance together with its snapshot files. -/
structure Sys where
  db : DB
  fs : FS
deriving DecidableEq, Repr

/-- Outcomes of the file-system calls a single `save` performs, plus the
`Date.now()` read on success.  Each flag tells whether the corresponding
call succeeds. -/
structure SaveOracle where
  writeOk : Bool
  renameOk : Bool
  unlinkOk : Bool
  now : Nat
deriving DecidableEq, Repr

inductive SaveErr where
  | writeFailed
  | renameFailed
deriving DecidableEq, Repr

/-- The constructor state of `new Database(schema, options)`:
empty data, indexes and cache, clean dirty flag. -/
def dbInit (batchSize : Nat) : DB :=
  { data := [], indexes := [], cache := [], dirty := false,
    lastSave := 0, batchSize := batchSize }

/-- Model of `Database.save` (src/index.js lines 142-170): encode
`Array.from(this.data.values())`, write it to `<schema>.tmp`, rename the
temp file over the canonical path, then clear the dirty flag and stamp
`lastSave`.  On a write or rename failure, best-effort unlink the temp
file and propagate the error.  (The `savePromise` coalescing of concurrent
callers is a scheduling concern not modelled here.) -/
def save (s : Sys) (io : SaveOracle) : Sys × Option SaveErr :=
  let dataArray := s.db.data.map (fun p => p.2)
  if io.writeOk then
    let fs1 : FS := { s.fs with temp := some dataArray }
    if io.renameOk then
      ({ db := { s.db with dirty := false, lastSave := io.now },
         fs := { canonical := some dataArray, temp := none } }, none)
    else
      ({ db := s.db,
         fs := { fs1 with temp := if io.unlinkOk then none else fs1.temp } },
       some .renameFailed)
  else
    ({ db := s.db,
       fs := { s.fs with temp := if io.unlinkOk then none else s.fs.temp } },
     some .writeFailed)

/-- The id `create` stores under: `obj.id || uuidv4()` (src/index.js line
210).  A missing or falsy `obj.id` is replaced by the fresh uuid. -/
def effId (obj : Rec) (fresh : String) : Value :=
  match jget obj "id" with
  | some v => if truthy v then v else .vStr fresh
  | none => .vStr fresh

/-- The per-record index insertion loop
(`for (const [key, value] of Object.entries(obj)) ... add(id)`). -/
def addAll (idx : Idx) (l : List (String × Value)) (i : Value) : Idx :=
  l.foldl (fun a kv => idxAdd a kv.1 kv.2 i) idx

/-- The per-record index removal loop
(`for (const [key, value] of Object.entries(obj)) ... delete(id)`). -/
def removeAll (idx : Idx) (l : List (String × Value)) (i : Value) : Idx :=
  l.foldl (fun a kv => idxRemove a kv.1 kv.2 i) idx

/-- Model of `Database.create` (src/index.js lines 208-231): pick the id, write it
onto the object, store it, index every field, mark dirty; if the store
size is now a multiple of `batchSize`, run a synchronous `save` (whose
error, if any, propagates).  Returns the stored object.  `fresh` stands
for the `uuidv4()` draw. -/
def create (s : Sys) (obj : Rec) (fresh : String) (io : SaveOracle) :
    Sys × Option SaveErr × Rec :=
  let id := effId obj fresh
  let obj2 := jset obj "id" id
  let data2 := jset s.db.data id obj2
  let idx2 := addAll s.db.indexes obj2 id
  let db2 := { s.db with data := data2, indexes := idx2, dirty := true }
  if data2.length % s.db.batchSize == 0 then
    let (s2, e) := save { db := db2, fs := s.fs } io
    (s2, e, obj2)
  else
    ({ db := db2, fs := s.fs }, none, obj2)

/-- Model of `Database.update` (src/index.js lines 238-268): `null` sentinel if the
id is absent; otherwise remove the existing record's index entries, merge
the updates over it (`{ ...existingObj, ...updates }`), store and index
the new version, mark dirty, return the new record. -/
def update (s : Sys) (id : Value) (updates : Rec) : Sys × Option Rec :=
  match jget s.db.data id with
  | none => (s, none)
  | some existingObj =>
    let idx1 := removeAll s.db.indexes existingObj id
    let updatedObj := updates.foldl (fun r kv => jset r kv.1 kv.2) existingObj
    let data2 := jset s.db.data id updatedObj
    let idx2 := addAll idx1 updatedObj id
    ({ s with db := { s.db with data := data2, indexes := idx2, dirty := true } },
     some updatedObj)

/-- Model of `Database.delete` (src/index.js lines 322-338): `false` if the id is
absent; otherwise remove the record's index entries, remove the record,
mark dirty, return `true`. -/
def delete (s : Sys) (id : Value) : Sys × Bool :=
  match jget s.db.data id with
  | none => (s, false)
  | some obj =>
    let idx1 := removeAll s.db.indexes obj id
    let db2 := { s.db with
                 data := jdel s.db.data id
                 indexes := idx1
                 dirty := true }
    ({ s with db := db2 }, true)

/-! ## Query engine -/

/-- Model of `JSON.stringify` on a scalar value. -/
def jsonVal : Value → String
  | .vNull => "null"
  | .vBool true => "true"
  | .vBool false => "false"
  | .vNum n => toString n
  | .vStr s => "\"" ++ s ++ "\""

/-- Model of `JSON.stringify` on a plain object (the predicate map). -/
def jsonObj (q : Rec) : String :=
  "\x7b" ++ String.intercalate ","
    (q.map (fun kv => "\"" ++ kv.1 ++ "\":" ++ jsonVal kv.2)) ++ "\x7d"

/-- The cache fingerprint of a multi-key query
(src/index.js line 288). -/
def fpQuery (q : Rec) : String := "query:" ++ jsonObj q

/-- The smallest-matching-set selection loop of `findByQuery`
(src/index.js lines 296-310): scan the predicate keys; for each key with
an index entry for its target value, keep the strictly smaller id set
(ties keep the first encountered). -/
def pickSmallest (idx : Idx) (q : Rec) : Option (JSet Value) :=
  (q.map (fun kv => kv.1)).foldl
    (fun acc k =>
      match (jget idx k).bind (fun m => (jget q k).bind (fun qv => jget m qv)) with
      | some matchingIds =>
        match acc with
        | none => some matchingIds
        | some smallestSet =>
          if matchingIds.length < smallestSet.length then some matchingIds
          else some smallestSet
      | none => acc)
    none

/-- The materialize-and-filter step of `findByQuery` (src/index.js lines
314-316): map ids to records, drop missing ones, keep those matching the
full conjunction `keys.every(key => obj[key] === query[key])`.  On the
scalar universe a missing field never satisfies `===` against a present
predicate value, so the conjunct is `jget obj k = jget q k`. -/
def driveFilter (data : JMap Value Rec) (ids : JSet Value) (q : Rec) : List Rec :=
  (ids.filterMap (fun i => jget data i)).filter
    (fun obj => (q.map (fun kv => kv.1)).all (fun k => decide (jget obj k = jget q k)))

/-- Model of `Database.findByQuery` (src/index.js lines 286-320): serve from the
result cache when the fingerprint is present (a JS array is always
truthy); empty predicate map returns `[]`; no candidate set returns `[]`;
otherwise filter the smallest candidate set by the full conjunction,
cache and return. -/
def findByQuery (s : Sys) (q : Rec) : Sys × List Rec :=
  match jget s.db.cache (fpQuery q) with
  | some cached => (s, cached)
  | none =>
    if (q.map (fun kv => kv.1)).length == 0 then (s, [])
    else
      match pickSmallest s.db.indexes q with
      | none => (s, [])
      | some smallestSet =>
        let results := driveFilter s.db.data smallestSet q
        let db2 := { s.db with cache := jset s.db.cache (fpQuery q) results }
        ({ s with db := db2 }, results)

/-! ## Parallel index build and load -/

/-- The worker body `buildIndexChunk` (src/index.js lines 100-110): a
sequential pass inserting every (field, value, id) triple of every record
of the chunk into a fresh index. -/
def buildIndexChunk (chunk : List (Value × Rec)) : Idx :=
  chunk.foldl (fun indexes e => addAll indexes e.2 e.1) []

/-- The worker-pool size (src/index.js lines 93-96):
`Math.max(1, Math.floor(cpus().length / 2))`. -/
def workerCount (cpus : Nat) : Nat := max 1 (cpus / 2)

/-- The merge loop of `buildIndexes` (src/index.js lines 191-205): for
every (key, valueMap) of a worker's partial index and every (value, ids)
under it, ensure the entry exists in the accumulator and add every id. -/
def mergeIdx (acc w : Idx) : Idx :=
  w.foldl
    (fun a kvm =>
      kvm.2.foldl
        (fun a2 vids =>
          vids.2.foldl (fun a3 i => idxAdd a3 kvm.1 vids.1 i)
            (ensureEntry a2 kvm.1 vids.1))
        a)
    acc

/-- Model of `Database.buildIndexes` (src/index.js lines 172-206): slice the entry
array into `pool` contiguous chunks of `Math.ceil(length / pool)` entries,
build a partial index per chunk, then merge the partial indexes in order
into a fresh index. -/
def buildIndexes (data : JMap Value Rec) (pool : Nat) : Idx :=
  let dataArray := data
  let chunkSize := (dataArray.length + pool - 1) / pool
  let chunks := (List.range pool).map
    (fun i => (dataArray.drop (i * chunkSize)).take chunkSize)
  let results := chunks.map buildIndexChunk
  results.foldl mergeIdx []

/-- Outcome of the snapshot file read in `load`. -/
inductive ReadResult where
  | enoent
  | fsError
  | ok (bytes : List Nat)
deriving DecidableEq, Repr

inductive LoadErr where
  | fsError
  | decodeError
deriving DecidableEq, Repr

/-- Model of `Database.load` (src/index.js lines 126-140): read and decode the
snapshot, key the decoded records by their `id` field, rebuild the index
through the worker pool.  `ENOENT` resets the data map to empty and
succeeds; any other read error or a decode failure propagates.  `dec`
stands for `msgpack.decode`, `pool` for the worker-pool size. -/
def load (db : DB) (pool : Nat) (r : ReadResult)
    (dec : List Nat → Option (List Rec)) : DB × Option LoadErr :=
  match r with
  | .enoent => ({ db with data := [] }, none)
  | .fsError => (db, some .fsError)
  | .ok bytes =>
    match dec bytes with
    | none => (db, some .decodeError)
    | some decodedData =>
      let data := decodedData.foldl
        (fun m item => jset m ((jget item "id").getD .vNull) item) []
      ({ db with data := data, indexes := buildIndexes data pool }, none)

/-! ## Invariants and operation sequences -/

/-- Well-formedness of a record: field names are duplicate-free, as they
are for every JavaScript object. -/
def RecWF (r : Rec) : Prop := (r.map (fun kv => kv.1)).Nodup

/-- Index consistency: the record-map keys are duplicate-free, every
stored record is well-formed, every (field, value) pair of a stored
record has the record's id in its index set, and every id in an index set
belongs to a stored record currently holding that value at that field. -/
def consistent (db : DB) : Prop :=
  (db.data.map (fun kv => kv.1)).Nodup ∧
  (∀ id r, jget db.data id = some r → RecWF r) ∧
  (∀ id r k v, jget db.data id = some r → jget r k = some v →
    memIdx db.indexes k v id) ∧
  (∀ k v id, memIdx db.indexes k v id →
    ∃ r, jget db.data id = some r ∧ jget r k = some v)

/-- A mutation of the record store, with the environment inputs the
operation consumes (the uuid draw and the save-path outcomes of
`create`). -/
inductive Op where
  | opCreate (obj : Rec) (fresh : String) (io : SaveOracle)
  | opUpdate (id : Value) (updates : Rec)
  | opDelete (id : Value)

/-- Run one mutation, keeping the post-state. -/
def applyOp (s : Sys) : Op → Sys
  | .opCreate obj fresh io => (create s obj fresh io).1
  | .opUpdate id u => (update s id u).1
  | .opDelete id => (delete s id).1

/-- Run a sequence of mutations. -/
def applyOps (s : Sys) (ops : List Op) : Sys := ops.foldl applyOp s

/-- Side condition of a single mutation: a create must carry a
well-formed object whose effective id (the supplied truthy id, or else
the fresh uuid) does not already name a stored record. -/
def opSafe (s : Sys) : Op → Prop
  | .opCreate obj fresh _ => RecWF obj ∧ jget s.db.data (effId obj fresh) = none
  | .opUpdate _ _ => True
  | .opDelete _ => True

/-- The side condition along a whole sequence, each operation judged in
the state it runs from. -/
def seqSafe : Sys → List Op → Prop
  | _, [] => True
  | s, op :: rest => opSafe s op ∧ seqSafe (applyOp s op) rest

/-- Modelled from the spec (§8, "Smallest-set heuristic correctness"):
the naive full-conjunction filter over all stored records, against which
`findByQuery`'s driving-set algorithm is compared. -/
def naiveFind (db : DB) (q : Rec) : List Rec :=
  (db.data.map (fun kv => kv.2)).filter
    (fun obj => (q.map (fun kv => kv.1)).all (fun k => decide (jget obj k = jget q k)))

/-- A record satisfies every predicate of the map exactly. -/
def QMatch (r q : Rec) : Prop := ∀ k v, jget q k = some v → jget r k = some v

/-- Duplicate-free keys at both levels of an index, as holds for every
actual JS `Map` of `Map`s. -/
def IdxWF (idx : Idx) : Prop :=
  (idx.map (fun kv => kv.1)).Nodup ∧
  ∀ p ∈ idx, ((p.2).map (fun kv => kv.1)).Nodup

/-- The size-triggered save condition of `create` (src/index.js line 226),
evaluated on the store size after the insertion. -/
def createTriggersSave (s : Sys) (obj : Rec) (fresh : String) : Bool :=
  (jset s.db.data (effId obj fresh)
    (jset obj "id" (effId obj fresh))).length % s.db.batchSize == 0

/-! ## Concrete states used in witnesses and counterexamples -/

def fsEx : FS := { canonical := none, temp := none }

def ioEx : SaveOracle := { writeOk := true, renameOk := true, unlinkOk := true, now := 7 }

def ioBad : SaveOracle := { writeOk := false, renameOk := true, unlinkOk := true, now := 9 }

/-- A freshly constructed store (`new Database(..., \x7bbatchSize: 5000\x7d)`). -/
def sysEx0 : Sys := { db := dbInit 5000, fs := fsEx }

def recA1 : Rec := [("id", .vStr "a"), ("x", .vNum 1)]

def recA2 : Rec := [("id", .vStr "a"), ("x", .vNum 2)]

def recB : Rec := [("name", .vStr "A"), ("age", .vNum 25)]

/-- The record `recB` as `create` stores it: with the generated id written on. -/
def recBStored : Rec := jset recB "id" (.vStr "u1")

/-- The store holding exactly the record created from `recB`. -/
def sysOne : Sys := (create sysEx0 recB "u1" ioEx).1

def qAge : Rec := [("age", .vNum 25)]

def pAge31 : Rec := [("age", .vNum 31)]

def recFalsy : Rec := [("id", .vStr ""), ("a", .vNum 1)]

/-- A decoder that always fails. -/
def decNone : List Nat → Option (List Rec) := fun _ => none

/-! ## Lemmas on the map and set primitives -/

theorem jget_jset {K V : Type} [DecidableEq K] (m : JMap K V) (k k' : K) (v : V) :
    jget (jset m k v) k' = if k = k' then some v else jget m k' := by
  induction m with
  | nil => simp [jset, jget]
  | cons p t ih =>
    obtain ⟨k1, v1⟩ := p
    by_cases h1 : k1 = k
    · subst h1
      by_cases h2 : k1 = k' <;> simp [jset, jget, h2]
    · by_cases h2 : k1 = k'
      · subst h2
        have : ¬ k = k1 := fun h => h1 h.symm
        simp [jset, jget, h1, this]
      · simp [jset, jget, h1, h2, ih]

theorem jget_jdel {K V : Type} [DecidableEq K] (m : JMap K V) (k k' : K) :
    jget (jdel m k) k' = if k = k' then none else jget m k' := by
  induction m with
  | nil => simp [jdel, jget]
  | cons p t ih =>
    obtain ⟨k1, v1⟩ := p
    by_cases h1 : k1 = k
    · subst h1
      have hstep : jdel ((k1, v1) :: t) k1 = jdel t k1 := by
        simp [jdel, List.filter_cons]
      rw [hstep, ih]
      by_cases h2 : k1 = k'
      · simp [h2]
      · simp [jget, h2]
    · have hstep : jdel ((k1, v1) :: t) k = (k1, v1) :: jdel t k := by
        simp [jdel, List.filter_cons, h1]
      rw [hstep]
      by_cases h2 : k1 = k'
      · subst h2
        have hne : ¬ k = k1 := fun h => h1 h.symm
        simp [jget, hne]
      · simp [jget, h2, ih]

theorem mem_of_jget_eq_some {K V : Type} [DecidableEq K] {m : JMap K V}
    {k : K} {v : V} (h : jget m k = some v) : (k, v) ∈ m := by
  induction m with
  | nil => simp [jget] at h
  | cons p t ih =>
    obtain ⟨k1, v1⟩ := p
    by_cases h1 : k1 = k
    · subst h1
      simp [jget] at h
      simp [h]
    · simp [jget, h1] at h
      exact List.mem_cons_of_mem _ (ih h)

theorem jget_eq_some_of_mem {K V : Type} [DecidableEq K] {m : JMap K V}
    {k : K} {v : V} (hnd : (m.map (fun kv => kv.1)).Nodup) (h : (k, v) ∈ m) :
    jget m k = some v := by
  induction m with
  | nil => simp at h
  | cons p t ih =>
    obtain ⟨k1, v1⟩ := p
    simp only [List.map_cons, List.nodup_cons] at hnd
    rcases List.mem_cons.mp h with h | h
    · obtain ⟨rfl, rfl⟩ := Prod.mk.injEq .. ▸ h
      simp [jget]
    · have hk : k1 ≠ k := by
        rintro rfl
        exact hnd.1 (List.mem_map.mpr ⟨(k1, v), h, rfl⟩)
      simp [jget, hk, ih hnd.2 h]

theorem jget_isSome_of_mem_keys {K V : Type} [DecidableEq K] {m : JMap K V}
    {k : K} (h : k ∈ m.map (fun kv => kv.1)) : ∃ v, jget m k = some v := by
  induction m with
  | nil => simp at h
  | cons p t ih =>
    obtain ⟨k1, v1⟩ := p
    rcases List.mem_cons.mp h with h | h
    · subst h
      exact ⟨v1, by simp [jget]⟩
    · by_cases h1 : k1 = k
      · subst h1
        exact ⟨v1, by simp [jget]⟩
      · simpa [jget, h1] using ih h

theorem keys_mem_of_jget_eq_some {K V : Type} [DecidableEq K] {m : JMap K V}
    {k : K} {v : V} (h : jget m k = some v) : k ∈ m.map (fun kv => kv.1) :=
  List.mem_map.mpr ⟨(k, v), mem_of_jget_eq_some h, rfl⟩

theorem keys_jset_subset {K V : Type} [DecidableEq K] {m : JMap K V}
    {k k2 : K} {v : V} (h : k2 ∈ (jset m k v).map (fun kv => kv.1)) :
    k2 = k ∨ k2 ∈ m.map (fun kv => kv.1) := by
  induction m with
  | nil =>
    simp [jset] at h
    exact Or.inl h
  | cons p t ih =>
    obtain ⟨k1, v1⟩ := p
    by_cases h1 : k1 = k
    · subst h1
      simp only [jset, if_pos rfl, List.map_cons] at h
      exact Or.inr (by simpa using h)
    · simp only [jset, if_neg h1, List.map_cons, List.mem_cons] at h
      rcases h with h | h
      · exact Or.inr (by simp [h])
      · rcases ih h with h2 | h2
        · exact Or.inl h2
        · exact Or.inr (by simp [h2])

theorem keys_jset_nodup {K V : Type} [DecidableEq K] {m : JMap K V}
    (k : K) (v : V) (hnd : (m.map (fun kv => kv.1)).Nodup) :
    ((jset m k v).map (fun kv => kv.1)).Nodup := by
  induction m with
  | nil => simp [jset]
  | cons p t ih =>
    obtain ⟨k1, v1⟩ := p
    simp only [List.map_cons, List.nodup_cons] at hnd
    by_cases h1 : k1 = k
    · subst h1
      simpa [jset] using hnd
    · simp only [jset, if_neg h1, List.map_cons, List.nodup_cons]
      refine ⟨?_, ih hnd.2⟩
      intro hmem
      rcases keys_jset_subset hmem with h2 | h2
      · exact h1 h2
      · exact hnd.1 h2

theorem mem_sadd {A : Type} [DecidableEq A] (s : JSet A) (a b : A) :
    b ∈ sadd s a ↔ b = a ∨ b ∈ s := by
  by_cases h : a ∈ s
  · simp only [sadd, if_pos h]
    constructor
    · exact Or.inr
    · rintro (rfl | hb)
      · exact h
      · exact hb
  · simp only [sadd, if_neg h, List.mem_append, List.mem_singleton]
    tauto

theorem mem_sdel {A : Type} [DecidableEq A] (s : JSet A) (a b : A) :
    b ∈ sdel s a ↔ b ∈ s ∧ b ≠ a := by
  simp [sdel]

/-! ## Lemmas on the index primitives -/

theorem jget_nil {K V : Type} [DecidableEq K] (k : K) :
    jget ([] : JMap K V) k = none := rfl

theorem idxGet_nil (k : String) (v : Value) : idxGet [] k v = none := rfl

theorem memIdx_nil (k : String) (v i : Value) : ¬ memIdx [] k v i := by
  rintro ⟨s, hs, _⟩
  simp [idxGet_nil] at hs

theorem idxGet_idxAdd (idx : Idx) (k : String) (v i : Value)
    (k' : String) (v' : Value) :
    idxGet (idxAdd idx k v i) k' v' =
      if k = k' ∧ v = v' then some (sadd ((idxGet idx k v).getD []) i)
      else idxGet idx k' v' := by
  unfold idxAdd
  by_cases hk : k = k'
  · subst hk
    by_cases hv : v = v'
    · subst hv
      cases h : jget idx k <;>
        simp [idxGet, h, jget_jset, jget_nil]
    · cases h : jget idx k <;>
        simp [idxGet, h, jget_jset, jget_nil, hv, Ne.symm hv]
  · simp [idxGet, jget_jset, hk]

theorem memIdx_idxAdd (idx : Idx) (k : String) (v i : Value)
    (k' : String) (v' j : Value) :
    memIdx (idxAdd idx k v i) k' v' j ↔
      (k = k' ∧ v = v' ∧ j = i) ∨ memIdx idx k' v' j := by
  unfold memIdx
  rw [idxGet_idxAdd]
  by_cases h : k = k' ∧ v = v'
  · obtain ⟨rfl, rfl⟩ := h
    rw [if_pos ⟨rfl, rfl⟩]
    cases hg : idxGet idx k v <;> simp [mem_sadd, hg]
  · rw [if_neg h]
    constructor
    · exact Or.inr
    · rintro (⟨rfl, rfl, rfl⟩ | hm)
      · exact absurd ⟨rfl, rfl⟩ h
      · exact hm

theorem present_idxAdd (idx : Idx) (k : String) (v i : Value)
    (k' : String) (v' : Value) :
    entryPresent (idxAdd idx k v i) k' v' ↔
      (k = k' ∧ v = v') ∨ entryPresent idx k' v' := by
  unfold entryPresent
  rw [idxGet_idxAdd]
  by_cases h : k = k' ∧ v = v'
  · simp [if_pos h, h]
  · rw [if_neg h]
    constructor
    · exact Or.inr
    · rintro (hkv | hm)
      · exact absurd hkv h
      · exact hm

theorem idxGet_ensureEntry (idx : Idx) (k : String) (v : Value)
    (k' : String) (v' : Value) :
    idxGet (ensureEntry idx k v) k' v' =
      if k = k' ∧ v = v' then some ((idxGet idx k v).getD [])
      else idxGet idx k' v' := by
  unfold ensureEntry
  by_cases hk : k = k'
  · subst hk
    by_cases hv : v = v'
    · subst hv
      cases h : jget idx k <;>
        cases hm : jget ((jget idx k).getD ([] : JMap Value (JSet Value))) v <;>
        simp_all [idxGet, jhas, jget_jset, jget_nil]
    · cases h : jget idx k <;>
        cases hm : jget ((jget idx k).getD ([] : JMap Value (JSet Value))) v <;>
        simp_all [idxGet, jhas, jget_jset, jget_nil, hv, Ne.symm hv]
  · cases h : jget idx k <;>
      cases hm : jget ((jget idx k).getD ([] : JMap Value (JSet Value))) v <;>
      simp_all [idxGet, jhas, jget_jset, hk]

theorem memIdx_ensureEntry (idx : Idx) (k : String) (v : Value)
    (k' : String) (v' j : Value) :
    memIdx (ensureEntry idx k v) k' v' j ↔ memIdx idx k' v' j := by
  unfold memIdx
  rw [idxGet_ensureEntry]
  by_cases h : k = k' ∧ v = v'
  · obtain ⟨rfl, rfl⟩ := h
    rw [if_pos ⟨rfl, rfl⟩]
    cases hg : idxGet idx k v <;> simp [hg]
  · rw [if_neg h]

theorem present_ensureEntry (idx : Idx) (k : String) (v : Value)
    (k' : String) (v' : Value) :
    entryPresent (ensureEntry idx k v) k' v' ↔
      (k = k' ∧ v = v') ∨ entryPresent idx k' v' := by
  unfold entryPresent
  rw [idxGet_ensureEntry]
  by_cases h : k = k' ∧ v = v'
  · simp [if_pos h, h]
  · rw [if_neg h]
    constructor
    · exact Or.inr
    · rintro (hkv | hm)
      · exact absurd hkv h
      · exact hm

theorem idxGet_idxRemove (idx : Idx) (k : String) (v i : Value)
    (k' : String) (v' : Value) :
    idxGet (idxRemove idx k v i) k' v' =
      if k = k' ∧ v = v' then (idxGet idx k v).map (fun s => sdel s i)
      else idxGet idx k' v' := by
  unfold idxRemove
  cases h : jget idx k with
  | none =>
    by_cases hkv : k = k' ∧ v = v'
    · obtain ⟨rfl, rfl⟩ := hkv
      simp [idxGet, h]
    · rw [if_neg hkv]
  | some m =>
    cases hm : jget m v with
    | none =>
      by_cases hkv : k = k' ∧ v = v'
      · obtain ⟨rfl, rfl⟩ := hkv
        simp [idxGet, h, hm]
      · simp only [hm]
        rw [if_neg hkv]
    | some s =>
      by_cases hk : k = k'
      · subst hk
        by_cases hv : v = v'
        · subst hv
          simp [idxGet, h, hm, jget_jset]
        · simp [idxGet, h, hm, jget_jset, hv, Ne.symm hv]
      · simp [idxGet, hm, jget_jset, hk]

theorem memIdx_idxRemove (idx : Idx) (k : String) (v i : Value)
    (k' : String) (v' j : Value) :
    memIdx (idxRemove idx k v i) k' v' j ↔
      memIdx idx k' v' j ∧ ¬(k = k' ∧ v = v' ∧ j = i) := by
  unfold memIdx
  rw [idxGet_idxRemove]
  by_cases h : k = k' ∧ v = v'
  · obtain ⟨rfl, rfl⟩ := h
    rw [if_pos ⟨rfl, rfl⟩]
    cases hg : idxGet idx k v with
    | none => simp [hg]
    | some s =>
      simp only [hg, Option.map_some', Option.some.injEq]
      constructor
      · rintro ⟨s', rfl, hj⟩
        rcases (mem_sdel s i j).mp hj with ⟨hj1, hj2⟩
        refine ⟨⟨s, rfl, hj1⟩, ?_⟩
        rintro ⟨_, _, rfl⟩
        exact hj2 rfl
      · rintro ⟨⟨s0, hs0, hj⟩, hne⟩
        obtain rfl : s = s0 := by simpa using hs0
        refine ⟨sdel s i, rfl, (mem_sdel s i j).mpr ⟨hj, fun hji => ?_⟩⟩
        exact hne (by simp [hji])
  · rw [if_neg h]
    constructor
    · intro hm
      refine ⟨hm, ?_⟩
      rintro ⟨rfl, rfl, _⟩
      exact h ⟨rfl, rfl⟩
    · exact fun hm => hm.1

theorem present_idxRemove (idx : Idx) (k : String) (v i : Value)
    (k' : String) (v' : Value) :
    entryPresent (idxRemove idx k v i) k' v' ↔ entryPresent idx k' v' := by
  unfold entryPresent
  rw [idxGet_idxRemove]
  by_cases h : k = k' ∧ v = v'
  · obtain ⟨rfl, rfl⟩ := h
    rw [if_pos ⟨rfl, rfl⟩]
    cases hg : idxGet idx k v <;> simp [hg]
  · rw [if_neg h]

/-! ## Lemmas on the per-record index loops -/

theorem memIdx_addAll (idx : Idx) (l : List (String × Value)) (i : Value)
    (k : String) (v j : Value) :
    memIdx (addAll idx l i) k v j ↔
      ((k, v) ∈ l ∧ j = i) ∨ memIdx idx k v j := by
  induction l generalizing idx with
  | nil => simp [addAll]
  | cons p t ih =>
    obtain ⟨k1, v1⟩ := p
    have hstep : addAll idx ((k1, v1) :: t) i = addAll (idxAdd idx k1 v1 i) t i := rfl
    rw [hstep, ih, memIdx_idxAdd]
    constructor
    · rintro (⟨hm, rfl⟩ | ⟨rfl, rfl, rfl⟩ | hm)
      · exact Or.inl ⟨List.mem_cons_of_mem _ hm, rfl⟩
      · exact Or.inl ⟨List.mem_cons_self _ _, rfl⟩
      · exact Or.inr hm
    · rintro (⟨hm, rfl⟩ | hm)
      · rcases List.mem_cons.mp hm with hm | hm
        · obtain ⟨rfl, rfl⟩ := Prod.mk.injEq .. ▸ hm
          exact Or.inr (Or.inl ⟨rfl, rfl, rfl⟩)
        · exact Or.inl ⟨hm, rfl⟩
      · exact Or.inr (Or.inr hm)

theorem present_addAll (idx : Idx) (l : List (String × Value)) (i : Value)
    (k : String) (v : Value) :
    entryPresent (addAll idx l i) k v ↔
      (k, v) ∈ l ∨ entryPresent idx k v := by
  induction l generalizing idx with
  | nil => simp [addAll]
  | cons p t ih =>
    obtain ⟨k1, v1⟩ := p
    have hstep : addAll idx ((k1, v1) :: t) i = addAll (idxAdd idx k1 v1 i) t i := rfl
    rw [hstep, ih, present_idxAdd]
    constructor
    · rintro (hm | ⟨rfl, rfl⟩ | hm)
      · exact Or.inl (List.mem_cons_of_mem _ hm)
      · exact Or.inl (List.mem_cons_self _ _)
      · exact Or.inr hm
    · rintro (hm | hm)
      · rcases List.mem_cons.mp hm with hm | hm
        · obtain ⟨rfl, rfl⟩ := Prod.mk.injEq .. ▸ hm
          exact Or.inr (Or.inl ⟨rfl, rfl⟩)
        · exact Or.inl hm
      · exact Or.inr (Or.inr hm)

theorem memIdx_removeAll (idx : Idx) (l : List (String × Value)) (i : Value)
    (k : String) (v j : Value) :
    memIdx (removeAll idx l i) k v j ↔
      memIdx idx k v j ∧ ¬((k, v) ∈ l ∧ j = i) := by
  induction l generalizing idx with
  | nil => simp [removeAll]
  | cons p t ih =>
    obtain ⟨k1, v1⟩ := p
    have hstep : removeAll idx ((k1, v1) :: t) i =
        removeAll (idxRemove idx k1 v1 i) t i := rfl
    rw [hstep, ih, memIdx_idxRemove]
    constructor
    · rintro ⟨⟨hm, hne1⟩, hne2⟩
      refine ⟨hm, ?_⟩
      rintro ⟨hmem, rfl⟩
      rcases List.mem_cons.mp hmem with hmem | hmem
      · obtain ⟨rfl, rfl⟩ := Prod.mk.injEq .. ▸ hmem
        exact hne1 ⟨rfl, rfl, rfl⟩
      · exact hne2 ⟨hmem, rfl⟩
    · rintro ⟨hm, hne⟩
      refine ⟨⟨hm, ?_⟩, ?_⟩
      · rintro ⟨rfl, rfl, rfl⟩
        exact hne ⟨List.mem_cons_self _ _, rfl⟩
      · rintro ⟨hmem, rfl⟩
        exact hne ⟨List.mem_cons_of_mem _ hmem, rfl⟩

theorem present_removeAll (idx : Idx) (l : List (String × Value)) (i : Value)
    (k : String) (v : Value) :
    entryPresent (removeAll idx l i) k v ↔ entryPresent idx k v := by
  induction l generalizing idx with
  | nil => simp [removeAll]
  | cons p t ih =>
    obtain ⟨k1, v1⟩ := p
    have hstep : removeAll idx ((k1, v1) :: t) i =
        removeAll (idxRemove idx k1 v1 i) t i := rfl
    rw [hstep, ih, present_idxRemove]

/-! ## Lemmas on record merge (`\x7b ...existingObj, ...updates \x7d`) -/

theorem jget_eq_none_of_not_mem_keys {K V : Type} [DecidableEq K]
    {m : JMap K V} {k : K} (h : k ∉ m.map (fun kv => kv.1)) :
    jget m k = none := by
  cases hg : jget m k with
  | none => rfl
  | some v => exact absurd (keys_mem_of_jget_eq_some hg) h

theorem recWF_jset {r : Rec} (k : String) (v : Value) (h : RecWF r) :
    RecWF (jset r k v) := keys_jset_nodup k v h

theorem recWF_merge (u : Rec) {r : Rec} (h : RecWF r) :
    RecWF (u.foldl (fun r kv => jset r kv.1 kv.2) r) := by
  induction u generalizing r with
  | nil => exact h
  | cons p t ih => exact ih (recWF_jset p.1 p.2 h)

theorem jget_merge_of_none {u : Rec} {k : String} (r : Rec)
    (h : jget u k = none) :
    jget (u.foldl (fun r kv => jset r kv.1 kv.2) r) k = jget r k := by
  induction u generalizing r with
  | nil => rfl
  | cons p t ih =>
    obtain ⟨k1, v1⟩ := p
    have hk : ¬ k1 = k := by
      intro hk
      simp [jget, hk] at h
    simp only [jget, if_neg hk] at h
    have hres := ih (jset r k1 v1) h
    simp only [List.foldl_cons]
    rw [hres, jget_jset, if_neg hk]

theorem jget_merge_of_some {u : Rec} {k : String} {v : Value} (r : Rec)
    (hu : RecWF u) (h : jget u k = some v) :
    jget (u.foldl (fun r kv => jset r kv.1 kv.2) r) k = some v := by
  induction u generalizing r with
  | nil => simp [jget] at h
  | cons p t ih =>
    obtain ⟨k1, v1⟩ := p
    simp only [RecWF, List.map_cons, List.nodup_cons] at hu
    by_cases hk : k1 = k
    · subst hk
      have hv : v1 = v := by simpa [jget] using h
      subst hv
      have ht : jget t k1 = none :=
        jget_eq_none_of_not_mem_keys (by simpa using hu.1)
      have hres := jget_merge_of_none (jset r k1 v1) ht
      simp only [List.foldl_cons]
      rw [hres, jget_jset, if_pos rfl]
    · simp only [jget, if_neg hk] at h
      exact ih (jset r k1 v1) hu.2 h

/-! ## Frame lemmas for create and save -/

theorem save_frame (s : Sys) (io : SaveOracle) :
    (save s io).1.db.data = s.db.data ∧
    (save s io).1.db.indexes = s.db.indexes ∧
    (save s io).1.db.cache = s.db.cache ∧
    (save s io).1.db.batchSize = s.db.batchSize := by
  unfold save
  by_cases hw : io.writeOk <;> by_cases hr : io.renameOk <;> simp [hw, hr]

theorem create_frame (s : Sys) (obj : Rec) (fresh : String) (io : SaveOracle) :
    (create s obj fresh io).1.db.data =
      jset s.db.data (effId obj fresh) (jset obj "id" (effId obj fresh)) ∧
    (create s obj fresh io).1.db.indexes =
      addAll s.db.indexes (jset obj "id" (effId obj fresh)) (effId obj fresh) ∧
    (create s obj fresh io).1.db.cache = s.db.cache ∧
    (create s obj fresh io).2.2 = jset obj "id" (effId obj fresh) := by
  by_cases ht : ((jset s.db.data (effId obj fresh)
        (jset obj "id" (effId obj fresh))).length % s.db.batchSize == 0) <;>
    by_cases hw : io.writeOk <;> by_cases hr : io.renameOk <;>
      simp [create, save, ht, hw, hr]

/-! ## Consistency preservation -/

theorem consistent_dbInit (b : Nat) : consistent (dbInit b) := by
  refine ⟨by simp [dbInit], ?_, ?_, ?_⟩
  · intro id r hr
    simp [dbInit, jget] at hr
  · intro id r k v hr
    simp [dbInit, jget] at hr
  · intro k v id hm
    exact absurd hm (by simpa [dbInit] using memIdx_nil k v id)

theorem consistent_create (s : Sys) (obj : Rec) (fresh : String)
    (io : SaveOracle) (h : consistent s.db) (hwf : RecWF obj)
    (hid : jget s.db.data (effId obj fresh) = none) :
    consistent ((create s obj fresh io).1.db) := by
  obtain ⟨hdata, hidx, _, _⟩ := create_frame s obj fresh io
  obtain ⟨hnd, hwfall, hdir1, hdir2⟩ := h
  set id := effId obj fresh with hiddef
  set obj2 := jset obj "id" id with hobj2
  have hwf2 : RecWF obj2 := recWF_jset _ _ hwf
  refine ⟨?_, ?_, ?_, ?_⟩
  · rw [hdata]
    exact keys_jset_nodup _ _ hnd
  · intro id' r hr
    rw [hdata, jget_jset] at hr
    by_cases hii : id = id'
    · rw [if_pos hii] at hr
      cases hr
      exact hwf2
    · rw [if_neg hii] at hr
      exact hwfall id' r hr
  · intro id' r k v hr hv
    rw [hdata, jget_jset] at hr
    rw [hidx]
    rw [memIdx_addAll]
    by_cases hii : id = id'
    · rw [if_pos hii] at hr
      cases hr
      exact Or.inl ⟨mem_of_jget_eq_some hv, hii.symm⟩
    · rw [if_neg hii] at hr
      exact Or.inr (hdir1 id' r k v hr hv)
  · intro k v id' hm
    rw [hidx, memIdx_addAll] at hm
    rcases hm with ⟨hmem, rfl⟩ | hm
    · refine ⟨obj2, ?_, jget_eq_some_of_mem hwf2 hmem⟩
      rw [hdata, jget_jset, if_pos rfl]
    · obtain ⟨r, hr, hv⟩ := hdir2 k v id' hm
      refine ⟨r, ?_, hv⟩
      rw [hdata, jget_jset]
      have hii : ¬ id = id' := by
        rintro rfl
        rw [hr] at hid
        cases hid
      rw [if_neg hii]
      exact hr

theorem consistent_update (s : Sys) (id : Value) (u : Rec)
    (h : consistent s.db) : consistent ((update s id u).1.db) := by
  cases hx : jget s.db.data id with
  | none =>
    unfold update
    rw [hx]
    exact h
  | some existingObj =>
    obtain ⟨hnd, hwfall, hdir1, hdir2⟩ := h
    have hwfe : RecWF existingObj := hwfall id existingObj hx
    unfold update
    rw [hx]
    simp only
    set idx1 := removeAll s.db.indexes existingObj id with hidx1
    set updatedObj := u.foldl (fun r kv => jset r kv.1 kv.2) existingObj
      with hupd
    have hwfu : RecWF updatedObj := recWF_merge u hwfe
    refine ⟨keys_jset_nodup _ _ hnd, ?_, ?_, ?_⟩
    · intro id' r hr
      rw [jget_jset] at hr
      by_cases hii : id = id'
      · rw [if_pos hii] at hr
        cases hr
        exact hwfu
      · rw [if_neg hii] at hr
        exact hwfall id' r hr
    · intro id' r k v hr hv
      rw [jget_jset] at hr
      rw [memIdx_addAll]
      by_cases hii : id = id'
      · rw [if_pos hii] at hr
        cases hr
        exact Or.inl ⟨mem_of_jget_eq_some hv, hii.symm⟩
      · rw [if_neg hii] at hr
        refine Or.inr ?_
        rw [hidx1, memIdx_removeAll]
        refine ⟨hdir1 id' r k v hr hv, ?_⟩
        rintro ⟨_, rfl⟩
        exact hii rfl
    · intro k v j hm
      rw [memIdx_addAll] at hm
      rcases hm with ⟨hmem, rfl⟩ | hm
      · refine ⟨updatedObj, ?_, jget_eq_some_of_mem hwfu hmem⟩
        rw [jget_jset, if_pos rfl]
      · rw [hidx1, memIdx_removeAll] at hm
        obtain ⟨hm0, hne⟩ := hm
        obtain ⟨r, hr, hv⟩ := hdir2 k v j hm0
        by_cases hji : j = id
        · subst hji
          rw [hx] at hr
          cases hr
          exact absurd ⟨mem_of_jget_eq_some hv, rfl⟩ hne
        · refine ⟨r, ?_, hv⟩
          rw [jget_jset]
          have : ¬ id = j := fun hh => hji hh.symm
          rw [if_neg this]
          exact hr

theorem consistent_delete (s : Sys) (id : Value)
    (h : consistent s.db) : consistent ((delete s id).1.db) := by
  cases hx : jget s.db.data id with
  | none =>
    unfold delete
    rw [hx]
    exact h
  | some obj =>
    obtain ⟨hnd, hwfall, hdir1, hdir2⟩ := h
    unfold delete
    rw [hx]
    simp only
    refine ⟨?_, ?_, ?_, ?_⟩
    · exact List.Nodup.sublist
        ((List.filter_sublist s.db.data).map (fun kv : Value × Rec => kv.1)) hnd
    · intro id' r hr
      rw [jget_jdel] at hr
      by_cases hii : id = id'
      · rw [if_pos hii] at hr
        cases hr
      · rw [if_neg hii] at hr
        exact hwfall id' r hr
    · intro id' r k v hr hv
      rw [jget_jdel] at hr
      by_cases hii : id = id'
      · rw [if_pos hii] at hr
        cases hr
      · rw [if_neg hii] at hr
        rw [memIdx_removeAll]
        refine ⟨hdir1 id' r k v hr hv, ?_⟩
        rintro ⟨_, rfl⟩
        exact hii rfl
    · intro k v j hm
      rw [memIdx_removeAll] at hm
      obtain ⟨hm0, hne⟩ := hm
      obtain ⟨r, hr, hv⟩ := hdir2 k v j hm0
      by_cases hji : j = id
      · subst hji
        rw [hx] at hr
        cases hr
        exact absurd ⟨mem_of_jget_eq_some hv, rfl⟩ hne
      · refine ⟨r, ?_, hv⟩
        rw [jget_jdel]
        have : ¬ id = j := fun hh => hji hh.symm
        rw [if_neg this]
        exact hr

/-! ## Characterization of the parallel index build -/

theorem memIdx_buildChunk_aux (chunk : List (Value × Rec)) (idx : Idx)
    (k : String) (v j : Value) :
    memIdx (chunk.foldl (fun indexes e => addAll indexes e.2 e.1) idx) k v j ↔
      (∃ obj, (j, obj) ∈ chunk ∧ (k, v) ∈ obj) ∨ memIdx idx k v j := by
  induction chunk generalizing idx with
  | nil => simp
  | cons e t ih =>
    obtain ⟨i0, obj0⟩ := e
    simp only [List.foldl_cons]
    rw [ih, memIdx_addAll]
    constructor
    · rintro (⟨obj, hm, hkv⟩ | ⟨hkv, rfl⟩ | hm)
      · exact Or.inl ⟨obj, List.mem_cons_of_mem _ hm, hkv⟩
      · exact Or.inl ⟨obj0, List.mem_cons_self _ _, hkv⟩
      · exact Or.inr hm
    · rintro (⟨obj, hm, hkv⟩ | hm)
      · rcases List.mem_cons.mp hm with hm | hm
        · obtain ⟨rfl, rfl⟩ := Prod.mk.injEq .. ▸ hm
          exact Or.inr (Or.inl ⟨hkv, rfl⟩)
        · exact Or.inl ⟨obj, hm, hkv⟩
      · exact Or.inr (Or.inr hm)

theorem memIdx_buildIndexChunk (chunk : List (Value × Rec))
    (k : String) (v j : Value) :
    memIdx (buildIndexChunk chunk) k v j ↔
      ∃ obj, (j, obj) ∈ chunk ∧ (k, v) ∈ obj := by
  unfold buildIndexChunk
  rw [memIdx_buildChunk_aux]
  simp [memIdx_nil]

theorem present_buildChunk_aux (chunk : List (Value × Rec)) (idx : Idx)
    (k : String) (v : Value) :
    entryPresent (chunk.foldl (fun indexes e => addAll indexes e.2 e.1) idx) k v ↔
      (∃ j obj, (j, obj) ∈ chunk ∧ (k, v) ∈ obj) ∨ entryPresent idx k v := by
  induction chunk generalizing idx with
  | nil => simp
  | cons e t ih =>
    obtain ⟨i0, obj0⟩ := e
    simp only [List.foldl_cons]
    rw [ih, present_addAll]
    constructor
    · rintro (⟨j, obj, hm, hkv⟩ | hkv | hm)
      · exact Or.inl ⟨j, obj, List.mem_cons_of_mem _ hm, hkv⟩
      · exact Or.inl ⟨i0, obj0, List.mem_cons_self _ _, hkv⟩
      · exact Or.inr hm
    · rintro (⟨j, obj, hm, hkv⟩ | hm)
      · rcases List.mem_cons.mp hm with hm | hm
        · obtain ⟨rfl, rfl⟩ := Prod.mk.injEq .. ▸ hm
          exact Or.inr (Or.inl hkv)
        · exact Or.inl ⟨j, obj, hm, hkv⟩
      · exact Or.inr (Or.inr hm)

theorem present_buildIndexChunk (chunk : List (Value × Rec))
    (k : String) (v : Value) :
    entryPresent (buildIndexChunk chunk) k v ↔
      ∃ j obj, (j, obj) ∈ chunk ∧ (k, v) ∈ obj := by
  unfold buildIndexChunk
  rw [present_buildChunk_aux]
  simp [entryPresent, idxGet_nil]

theorem memIdx_addIds (a : Idx) (k : String) (v : Value) (ids : List Value)
    (k' : String) (v' j : Value) :
    memIdx (ids.foldl (fun a3 i => idxAdd a3 k v i) a) k' v' j ↔
      (k = k' ∧ v = v' ∧ j ∈ ids) ∨ memIdx a k' v' j := by
  induction ids generalizing a with
  | nil => simp
  | cons i0 t ih =>
    simp only [List.foldl_cons]
    rw [ih, memIdx_idxAdd]
    constructor
    · rintro (⟨rfl, rfl, hm⟩ | ⟨rfl, rfl, rfl⟩ | hm)
      · exact Or.inl ⟨rfl, rfl, List.mem_cons_of_mem _ hm⟩
      · exact Or.inl ⟨rfl, rfl, List.mem_cons_self _ _⟩
      · exact Or.inr hm
    · rintro (⟨rfl, rfl, hm⟩ | hm)
      · rcases List.mem_cons.mp hm with rfl | hm
        · exact Or.inr (Or.inl ⟨rfl, rfl, rfl⟩)
        · exact Or.inl ⟨rfl, rfl, hm⟩
      · exact Or.inr (Or.inr hm)

theorem present_addIds (a : Idx) (k : String) (v : Value) (ids : List Value)
    (k' : String) (v' : Value) :
    entryPresent (ids.foldl (fun a3 i => idxAdd a3 k v i) a) k' v' ↔
      (k = k' ∧ v = v' ∧ ids ≠ []) ∨ entryPresent a k' v' := by
  induction ids generalizing a with
  | nil => simp
  | cons i0 t ih =>
    simp only [List.foldl_cons]
    rw [ih, present_idxAdd]
    constructor
    · rintro (⟨rfl, rfl, _⟩ | ⟨rfl, rfl⟩ | hm)
      · exact Or.inl ⟨rfl, rfl, by simp⟩
      · exact Or.inl ⟨rfl, rfl, by simp⟩
      · exact Or.inr hm
    · rintro (⟨rfl, rfl, _⟩ | hm)
      · exact Or.inr (Or.inl ⟨rfl, rfl⟩)
      · exact Or.inr (Or.inr hm)

theorem memIdx_mergeKey (a : Idx) (k : String)
    (vm : JMap Value (JSet Value)) (k' : String) (v' j : Value) :
    memIdx (vm.foldl (fun a2 vids => (vids.2).foldl
        (fun a3 i => idxAdd a3 k vids.1 i) (ensureEntry a2 k vids.1)) a) k' v' j ↔
      (k = k' ∧ ∃ ids, (v', ids) ∈ vm ∧ j ∈ ids) ∨ memIdx a k' v' j := by
  induction vm generalizing a with
  | nil => simp
  | cons p t ih =>
    obtain ⟨v0, ids0⟩ := p
    simp only [List.foldl_cons]
    rw [ih, memIdx_addIds, memIdx_ensureEntry]
    constructor
    · rintro (⟨rfl, ids, hm, hj⟩ | ⟨rfl, rfl, hj⟩ | hm)
      · exact Or.inl ⟨rfl, ids, List.mem_cons_of_mem _ hm, hj⟩
      · exact Or.inl ⟨rfl, ids0, List.mem_cons_self _ _, hj⟩
      · exact Or.inr hm
    · rintro (⟨rfl, ids, hm, hj⟩ | hm)
      · rcases List.mem_cons.mp hm with hm | hm
        · obtain ⟨rfl, rfl⟩ := Prod.mk.injEq .. ▸ hm
          exact Or.inr (Or.inl ⟨rfl, rfl, hj⟩)
        · exact Or.inl ⟨rfl, ids, hm, hj⟩
      · exact Or.inr (Or.inr hm)

theorem present_mergeKey (a : Idx) (k : String)
    (vm : JMap Value (JSet Value)) (k' : String) (v' : Value) :
    entryPresent (vm.foldl (fun a2 vids => (vids.2).foldl
        (fun a3 i => idxAdd a3 k vids.1 i) (ensureEntry a2 k vids.1)) a) k' v' ↔
      (k = k' ∧ ∃ ids, (v', ids) ∈ vm) ∨ entryPresent a k' v' := by
  induction vm generalizing a with
  | nil => simp
  | cons p t ih =>
    obtain ⟨v0, ids0⟩ := p
    simp only [List.foldl_cons]
    rw [ih, present_addIds, present_ensureEntry]
    constructor
    · rintro (⟨rfl, ids, hm⟩ | ⟨rfl, rfl, _⟩ | ⟨rfl, rfl⟩ | hm)
      · exact Or.inl ⟨rfl, ids, List.mem_cons_of_mem _ hm⟩
      · exact Or.inl ⟨rfl, ids0, List.mem_cons_self _ _⟩
      · exact Or.inl ⟨rfl, ids0, List.mem_cons_self _ _⟩
      · exact Or.inr hm
    · rintro (⟨rfl, ids, hm⟩ | hm)
      · rcases List.mem_cons.mp hm with hm | hm
        · obtain ⟨rfl, rfl⟩ := Prod.mk.injEq .. ▸ hm
          exact Or.inr (Or.inr (Or.inl ⟨rfl, rfl⟩))
        · exact Or.inl ⟨rfl, ids, hm⟩
      · exact Or.inr (Or.inr (Or.inr hm))

theorem memIdx_mergeIdx (acc w : Idx) (k : String) (v j : Value) :
    memIdx (mergeIdx acc w) k v j ↔
      (∃ vm ids, (k, vm) ∈ w ∧ (v, ids) ∈ vm ∧ j ∈ ids) ∨ memIdx acc k v j := by
  induction w generalizing acc with
  | nil => simp [mergeIdx]
  | cons p t ih =>
    obtain ⟨k0, vm0⟩ := p
    have hstep : mergeIdx acc ((k0, vm0) :: t) =
        mergeIdx (vm0.foldl (fun a2 vids => (vids.2).foldl
          (fun a3 i => idxAdd a3 k0 vids.1 i) (ensureEntry a2 k0 vids.1)) acc) t := rfl
    rw [hstep, ih, memIdx_mergeKey]
    constructor
    · rintro (⟨vm, ids, hm, hv, hj⟩ | ⟨rfl, ids, hv, hj⟩ | hm)
      · exact Or.inl ⟨vm, ids, List.mem_cons_of_mem _ hm, hv, hj⟩
      · exact Or.inl ⟨vm0, ids, List.mem_cons_self _ _, hv, hj⟩
      · exact Or.inr hm
    · rintro (⟨vm, ids, hm, hv, hj⟩ | hm)
      · rcases List.mem_cons.mp hm with hm | hm
        · obtain ⟨rfl, rfl⟩ := Prod.mk.injEq .. ▸ hm
          exact Or.inr (Or.inl ⟨rfl, ids, hv, hj⟩)
        · exact Or.inl ⟨vm, ids, hm, hv, hj⟩
      · exact Or.inr (Or.inr hm)

theorem present_mergeIdx (acc w : Idx) (k : String) (v : Value) :
    entryPresent (mergeIdx acc w) k v ↔
      (∃ vm, (k, vm) ∈ w ∧ ∃ ids, (v, ids) ∈ vm) ∨ entryPresent acc k v := by
  induction w generalizing acc with
  | nil => simp [mergeIdx]
  | cons p t ih =>
    obtain ⟨k0, vm0⟩ := p
    have hstep : mergeIdx acc ((k0, vm0) :: t) =
        mergeIdx (vm0.foldl (fun a2 vids => (vids.2).foldl
          (fun a3 i => idxAdd a3 k0 vids.1 i) (ensureEntry a2 k0 vids.1)) acc) t := rfl
    rw [hstep, ih, present_mergeKey]
    constructor
    · rintro (⟨vm, hm, ids, hv⟩ | ⟨rfl, ids, hv⟩ | hm)
      · exact Or.inl ⟨vm, List.mem_cons_of_mem _ hm, ids, hv⟩
      · exact Or.inl ⟨vm0, List.mem_cons_self _ _, ids, hv⟩
      · exact Or.inr hm
    · rintro (⟨vm, hm, ids, hv⟩ | hm)
      · rcases List.mem_cons.mp hm with hm | hm
        · obtain ⟨rfl, rfl⟩ := Prod.mk.injEq .. ▸ hm
          exact Or.inr (Or.inl ⟨rfl, ids, hv⟩)
        · exact Or.inl ⟨vm, hm, ids, hv⟩
      · exact Or.inr (Or.inr hm)

/-! ## Well-formedness of built indexes -/

theorem mem_jset_elim {K V : Type} [DecidableEq K] {m : JMap K V}
    {k : K} {v : V} {p : K × V} (h : p ∈ jset m k v) :
    p = (k, v) ∨ p ∈ m := by
  induction m with
  | nil =>
    simp [jset] at h
    exact Or.inl h
  | cons q t ih =>
    obtain ⟨k1, v1⟩ := q
    by_cases h1 : k1 = k
    · subst h1
      simp only [jset, if_pos rfl] at h
      rcases List.mem_cons.mp h with h | h
      · exact Or.inl (by simpa using h)
      · exact Or.inr (List.mem_cons_of_mem _ h)
    · simp only [jset, if_neg h1] at h
      rcases List.mem_cons.mp h with h | h
      · exact Or.inr (by simp [h])
      · rcases ih h with h2 | h2
        · exact Or.inl h2
        · exact Or.inr (List.mem_cons_of_mem _ h2)

theorem idxWF_jset {idx : Idx} {k : String} {m2 : JMap Value (JSet Value)}
    (h : IdxWF idx) (hm2 : (m2.map (fun kv => kv.1)).Nodup) :
    IdxWF (jset idx k m2) := by
  refine ⟨keys_jset_nodup k m2 h.1, ?_⟩
  intro p hp
  rcases mem_jset_elim hp with rfl | hp
  · exact hm2
  · exact h.2 p hp

theorem idxWF_idxAdd {idx : Idx} (k : String) (v i : Value) (h : IdxWF idx) :
    IdxWF (idxAdd idx k v i) := by
  unfold idxAdd
  apply idxWF_jset h
  cases hg : jget idx k with
  | none => simp [jget_nil, jset]
  | some m =>
    have hm : (m.map (fun kv => kv.1)).Nodup :=
      h.2 (k, m) (mem_of_jget_eq_some hg)
    simpa [hg] using keys_jset_nodup _ _ hm

theorem idxWF_nil : IdxWF [] := by
  constructor <;> simp

theorem idxWF_addAll {idx : Idx} (l : List (String × Value)) (i : Value)
    (h : IdxWF idx) : IdxWF (addAll idx l i) := by
  induction l generalizing idx with
  | nil => exact h
  | cons p t ih => exact ih (idxWF_idxAdd p.1 p.2 i h)

theorem idxWF_buildChunk_aux (chunk : List (Value × Rec)) (idx : Idx)
    (h : IdxWF idx) :
    IdxWF (chunk.foldl (fun indexes e => addAll indexes e.2 e.1) idx) := by
  induction chunk generalizing idx with
  | nil => exact h
  | cons e t ih => exact ih _ (idxWF_addAll _ _ h)

theorem idxWF_buildIndexChunk (chunk : List (Value × Rec)) :
    IdxWF (buildIndexChunk chunk) :=
  idxWF_buildChunk_aux chunk [] idxWF_nil

/-- For a well-formed index, nested pair membership coincides with nested
lookup membership. -/
theorem pairsMem_iff_memIdx {w : Idx} (hwf : IdxWF w)
    (k : String) (v j : Value) :
    (∃ vm ids, (k, vm) ∈ w ∧ (v, ids) ∈ vm ∧ j ∈ ids) ↔ memIdx w k v j := by
  constructor
  · rintro ⟨vm, ids, hm, hv, hj⟩
    have h1 : jget w k = some vm := jget_eq_some_of_mem hwf.1 hm
    have h2 : jget vm v = some ids :=
      jget_eq_some_of_mem (hwf.2 (k, vm) hm) hv
    exact ⟨ids, by simp [idxGet, h1, h2], hj⟩
  · rintro ⟨s, hs, hj⟩
    unfold idxGet at hs
    cases h1 : jget w k with
    | none => rw [h1] at hs; cases hs
    | some vm =>
      rw [h1] at hs
      simp only [Option.some_bind] at hs
      exact ⟨vm, s, mem_of_jget_eq_some h1, mem_of_jget_eq_some hs, hj⟩

theorem pairsPresent_iff_present {w : Idx} (hwf : IdxWF w)
    (k : String) (v : Value) :
    (∃ vm, (k, vm) ∈ w ∧ ∃ ids, (v, ids) ∈ vm) ↔ entryPresent w k v := by
  constructor
  · rintro ⟨vm, hm, ids, hv⟩
    have h1 : jget w k = some vm := jget_eq_some_of_mem hwf.1 hm
    have h2 : jget vm v = some ids :=
      jget_eq_some_of_mem (hwf.2 (k, vm) hm) hv
    simp [entryPresent, idxGet, h1, h2]
  · intro hp
    unfold entryPresent idxGet at hp
    cases h1 : jget w k with
    | none => rw [h1] at hp; cases hp
    | some vm =>
      rw [h1] at hp
      simp only [Option.some_bind] at hp
      cases h2 : jget vm v with
      | none => rw [h2] at hp; cases hp
      | some ids =>
        exact ⟨vm, mem_of_jget_eq_some h1, ids, mem_of_jget_eq_some h2⟩

/-! ## The chunks of `buildIndexes` cover the data exactly once -/

theorem flatten_chunks_take {A : Type} (xs : List A) (n cs : Nat) :
    ((List.range n).map (fun i => (xs.drop (i * cs)).take cs)).flatten =
      xs.take (n * cs) := by
  induction n with
  | zero => simp
  | succ m ih =>
    rw [List.range_succ, List.map_append, List.flatten_append, ih]
    have harith : (m + 1) * cs = m * cs + cs := by ring
    rw [harith, List.take_add]
    simp

theorem length_le_mul_ceil (len n : Nat) (hn : 0 < n) :
    len ≤ n * ((len + n - 1) / n) := by
  have hd := Nat.div_add_mod (len + n - 1) n
  have hm : (len + n - 1) % n < n := Nat.mod_lt _ hn
  omega

theorem flatten_chunks {A : Type} (xs : List A) (n : Nat) (hn : 0 < n) :
    ((List.range n).map
      (fun i => (xs.drop (i * ((xs.length + n - 1) / n))).take
        ((xs.length + n - 1) / n))).flatten = xs := by
  rw [flatten_chunks_take]
  exact List.take_of_length_le (length_le_mul_ceil xs.length n hn)

/-! ## Aggregate merge of all worker results -/

theorem memIdx_foldl_merge (ws : List Idx) (acc : Idx)
    (k : String) (v j : Value) :
    memIdx (ws.foldl mergeIdx acc) k v j ↔
      (∃ w ∈ ws, ∃ vm ids, (k, vm) ∈ w ∧ (v, ids) ∈ vm ∧ j ∈ ids) ∨
        memIdx acc k v j := by
  induction ws generalizing acc with
  | nil => simp
  | cons w t ih =>
    simp only [List.foldl_cons]
    rw [ih, memIdx_mergeIdx]
    constructor
    · rintro (⟨w', hw', hp⟩ | hp | hm)
      · exact Or.inl ⟨w', List.mem_cons_of_mem _ hw', hp⟩
      · exact Or.inl ⟨w, List.mem_cons_self _ _, hp⟩
      · exact Or.inr hm
    · rintro (⟨w', hw', hp⟩ | hm)
      · rcases List.mem_cons.mp hw' with rfl | hw'
        · exact Or.inr (Or.inl hp)
        · exact Or.inl ⟨w', hw', hp⟩
      · exact Or.inr (Or.inr hm)

theorem present_foldl_merge (ws : List Idx) (acc : Idx)
    (k : String) (v : Value) :
    entryPresent (ws.foldl mergeIdx acc) k v ↔
      (∃ w ∈ ws, ∃ vm, (k, vm) ∈ w ∧ ∃ ids, (v, ids) ∈ vm) ∨
        entryPresent acc k v := by
  induction ws generalizing acc with
  | nil => simp
  | cons w t ih =>
    simp only [List.foldl_cons]
    rw [ih, present_mergeIdx]
    constructor
    · rintro (⟨w', hw', hp⟩ | hp | hm)
      · exact Or.inl ⟨w', List.mem_cons_of_mem _ hw', hp⟩
      · exact Or.inl ⟨w, List.mem_cons_self _ _, hp⟩
      · exact Or.inr hm
    · rintro (⟨w', hw', hp⟩ | hm)
      · rcases List.mem_cons.mp hw' with rfl | hw'
        · exact Or.inr (Or.inl hp)
        · exact Or.inl ⟨w', hw', hp⟩
      · exact Or.inr (Or.inr hm)

/-! ## The parallel build equals the sequential build -/

theorem memIdx_buildIndexes (data : JMap Value Rec) (pool : Nat)
    (hp : 0 < pool) (k : String) (v j : Value) :
    memIdx (buildIndexes data pool) k v j ↔
      memIdx (buildIndexChunk data) k v j := by
  unfold buildIndexes
  rw [memIdx_foldl_merge, memIdx_buildIndexChunk]
  have hchunks := flatten_chunks data pool hp
  constructor
  · rintro (⟨w, hw, hp'⟩ | hm)
    · rcases List.mem_map.mp hw with ⟨c, hc, rfl⟩
      have := (pairsMem_iff_memIdx (idxWF_buildIndexChunk c) k v j).mp hp'
      rcases (memIdx_buildIndexChunk c k v j).mp this with ⟨obj, hobj, hkv⟩
      refine ⟨obj, ?_, hkv⟩
      rw [← hchunks]
      exact List.mem_flatten.mpr ⟨c, hc, hobj⟩
    · exact absurd hm (memIdx_nil k v j)
  · rintro ⟨obj, hobj, hkv⟩
    rw [← hchunks] at hobj
    rcases List.mem_flatten.mp hobj with ⟨c, hc, hobj⟩
    refine Or.inl ⟨buildIndexChunk c, List.mem_map.mpr ⟨c, hc, rfl⟩, ?_⟩
    exact (pairsMem_iff_memIdx (idxWF_buildIndexChunk c) k v j).mpr
      ((memIdx_buildIndexChunk c k v j).mpr ⟨obj, hobj, hkv⟩)

theorem present_buildIndexes (data : JMap Value Rec) (pool : Nat)
    (hp : 0 < pool) (k : String) (v : Value) :
    entryPresent (buildIndexes data pool) k v ↔
      entryPresent (buildIndexChunk data) k v := by
  unfold buildIndexes
  rw [present_foldl_merge, present_buildIndexChunk]
  have hchunks := flatten_chunks data pool hp
  constructor
  · rintro (⟨w, hw, hp'⟩ | hm)
    · rcases List.mem_map.mp hw with ⟨c, hc, rfl⟩
      have := (pairsPresent_iff_present (idxWF_buildIndexChunk c) k v).mp hp'
      rcases (present_buildIndexChunk c k v).mp this with ⟨j, obj, hobj, hkv⟩
      refine ⟨j, obj, ?_, hkv⟩
      rw [← hchunks]
      exact List.mem_flatten.mpr ⟨c, hc, hobj⟩
    · simp [entryPresent, idxGet_nil] at hm
  · rintro ⟨j, obj, hobj, hkv⟩
    rw [← hchunks] at hobj
    rcases List.mem_flatten.mp hobj with ⟨c, hc, hobj⟩
    refine Or.inl ⟨buildIndexChunk c, List.mem_map.mpr ⟨c, hc, rfl⟩, ?_⟩
    exact (pairsPresent_iff_present (idxWF_buildIndexChunk c) k v).mpr
      ((present_buildIndexChunk c k v).mpr ⟨j, obj, hobj, hkv⟩)

/-! ## Query-engine lemmas -/

theorem lookup2_eq_some (idx : Idx) (q : Rec) (k : String) (ids : JSet Value) :
    ((jget idx k).bind (fun m => (jget q k).bind (fun qv => jget m qv)) = some ids) ↔
      ∃ qv, jget q k = some qv ∧ idxGet idx k qv = some ids := by
  cases h1 : jget idx k <;> cases h2 : jget q k <;> simp [idxGet, h1, h2]

theorem lookup2_eq_none (idx : Idx) (q : Rec) (k : String) :
    ((jget idx k).bind (fun m => (jget q k).bind (fun qv => jget m qv)) = none) ↔
      ∀ qv, jget q k = some qv → idxGet idx k qv = none := by
  cases h1 : jget idx k <;> cases h2 : jget q k <;> simp [idxGet, h1, h2]

theorem pickSmallest_spec (idx : Idx) (q : Rec) :
    (∀ ids, pickSmallest idx q = some ids →
      ∃ k qv, k ∈ q.map (fun kv => kv.1) ∧ jget q k = some qv ∧
        idxGet idx k qv = some ids) ∧
    (pickSmallest idx q = none →
      ∀ k ∈ q.map (fun kv => kv.1), ∀ qv, jget q k = some qv →
        idxGet idx k qv = none) := by
  unfold pickSmallest
  have haux : ∀ (keys : List String) (acc : Option (JSet Value)),
      (∀ ids, keys.foldl (fun acc k =>
          match (jget idx k).bind (fun m => (jget q k).bind (fun qv => jget m qv)) with
          | some matchingIds =>
            match acc with
            | none => some matchingIds
            | some smallestSet =>
              if matchingIds.length < smallestSet.length then some matchingIds
              else some smallestSet
          | none => acc) acc = some ids →
        acc = some ids ∨ ∃ k ∈ keys,
          (jget idx k).bind (fun m => (jget q k).bind (fun qv => jget m qv)) = some ids) ∧
      (keys.foldl (fun acc k =>
          match (jget idx k).bind (fun m => (jget q k).bind (fun qv => jget m qv)) with
          | some matchingIds =>
            match acc with
            | none => some matchingIds
            | some smallestSet =>
              if matchingIds.length < smallestSet.length then some matchingIds
              else some smallestSet
          | none => acc) acc = none →
        acc = none ∧ ∀ k ∈ keys,
          (jget idx k).bind (fun m => (jget q k).bind (fun qv => jget m qv)) = none) := by
    intro keys
    induction keys with
    | nil => exact fun acc => ⟨fun ids h => Or.inl h, fun h => ⟨h, by simp⟩⟩
    | cons k0 t ih =>
      intro acc
      simp only [List.foldl_cons]
      cases hl : (jget idx k0).bind (fun m => (jget q k0).bind (fun qv => jget m qv)) with
      | none =>
        refine ⟨fun ids h => ?_, fun h => ?_⟩
        · rcases (ih acc).1 ids (by simpa [hl] using h) with h2 | ⟨k, hk, h2⟩
          · exact Or.inl h2
          · exact Or.inr ⟨k, List.mem_cons_of_mem _ hk, h2⟩
        · obtain ⟨h1, h2⟩ := (ih acc).2 (by simpa [hl] using h)
          refine ⟨h1, ?_⟩
          intro k hk
          rcases List.mem_cons.mp hk with rfl | hk
          · exact hl
          · exact h2 k hk
      | some m0 =>
        cases acc with
        | none =>
          refine ⟨fun ids h => ?_, fun h => ?_⟩
          · rcases (ih (some m0)).1 ids (by simpa [hl] using h) with h2 | ⟨k, hk, h2⟩
            · refine Or.inr ⟨k0, List.mem_cons_self _ _, ?_⟩
              rw [hl, h2]
            · exact Or.inr ⟨k, List.mem_cons_of_mem _ hk, h2⟩
          · obtain ⟨h1, _⟩ := (ih (some m0)).2 (by simpa [hl] using h)
            cases h1
        | some best =>
          by_cases hlt : m0.length < best.length
          · refine ⟨fun ids h => ?_, fun h => ?_⟩
            · rcases (ih (some m0)).1 ids (by simpa [hl, hlt] using h) with h2 | ⟨k, hk, h2⟩
              · refine Or.inr ⟨k0, List.mem_cons_self _ _, ?_⟩
                rw [hl, h2]
              · exact Or.inr ⟨k, List.mem_cons_of_mem _ hk, h2⟩
            · obtain ⟨h1, _⟩ := (ih (some m0)).2 (by simpa [hl, hlt] using h)
              cases h1
          · refine ⟨fun ids h => ?_, fun h => ?_⟩
            · rcases (ih (some best)).1 ids (by simpa [hl, hlt] using h) with h2 | ⟨k, hk, h2⟩
              · exact Or.inl h2
              · exact Or.inr ⟨k, List.mem_cons_of_mem _ hk, h2⟩
            · obtain ⟨h1, _⟩ := (ih (some best)).2 (by simpa [hl, hlt] using h)
              cases h1
  refine ⟨fun ids h => ?_, fun h => ?_⟩
  · rcases (haux (q.map (fun kv => kv.1)) none).1 ids h with h2 | ⟨k, hk, h2⟩
    · cases h2
    · obtain ⟨qv, hqv, hig⟩ := (lookup2_eq_some idx q k ids).mp h2
      exact ⟨k, qv, hk, hqv, hig⟩
  · intro k hk qv hqv
    exact (lookup2_eq_none idx q k).mp ((haux (q.map (fun kv => kv.1)) none).2 h |>.2 k hk) qv hqv

/-- Filtering any driving candidate set that is a genuine index entry for
one of the predicates yields, on a consistent store, exactly the naive
full-conjunction filter (as a set of records). -/
theorem driveFilter_eq_naive (db : DB) (q : Rec) (h : consistent db)
    (k : String) (qv : Value) (ids : JSet Value)
    (hk : jget q k = some qv) (hids : idxGet db.indexes k qv = some ids) :
    ∀ r, r ∈ driveFilter db.data ids q ↔ r ∈ naiveFind db q := by
  obtain ⟨hnd, _, hdir1, hdir2⟩ := h
  intro r
  unfold driveFilter naiveFind
  constructor
  · intro hr
    rw [List.mem_filter] at hr
    obtain ⟨hr1, hr2⟩ := hr
    rcases List.mem_filterMap.mp hr1 with ⟨i, _, hget⟩
    rw [List.mem_filter]
    exact ⟨List.mem_map.mpr ⟨(i, r), mem_of_jget_eq_some hget, rfl⟩, hr2⟩
  · intro hr
    rw [List.mem_filter] at hr
    obtain ⟨hr1, hr2⟩ := hr
    rcases List.mem_map.mp hr1 with ⟨⟨i, r2⟩, hmem, hr2eq⟩
    replace hr2eq : r2 = r := hr2eq
    have hget : jget db.data i = some r := hr2eq ▸ jget_eq_some_of_mem hnd hmem
    rw [List.mem_filter]
    refine ⟨?_, hr2⟩
    have hrk : jget r k = some qv := by
      have hall := hr2
      rw [List.all_eq_true] at hall
      have hdec := hall k (keys_mem_of_jget_eq_some hk)
      have heq : jget r k = jget q k := of_decide_eq_true hdec
      rw [heq, hk]
    have hmidx : memIdx db.indexes k qv i := hdir1 i r k qv hget hrk
    obtain ⟨s, hs, hi⟩ := hmidx
    rw [hids] at hs
    cases hs
    exact List.mem_filterMap.mpr ⟨i, hi, hget⟩

/-- On a cache miss over a consistent store, `findByQuery` with a
nonempty predicate map returns exactly the naive full-conjunction filter
(as a set of records). -/
theorem findByQuery_miss_mem (s : Sys) (q : Rec) (hc : consistent s.db)
    (hmiss : jget s.db.cache (fpQuery q) = none) (hq : q ≠ []) (r : Rec) :
    r ∈ (findByQuery s q).2 ↔ r ∈ naiveFind s.db q := by
  have hlen : ((q.map (fun kv => kv.1)).length == 0) = false := by
    cases q with
    | nil => exact absurd rfl hq
    | cons p t => simp
  unfold findByQuery
  rw [hmiss]
  simp only [hlen, Bool.false_eq_true, if_false]
  cases hp : pickSmallest s.db.indexes q with
  | none =>
    simp only [List.not_mem_nil, false_iff]
    intro hr
    unfold naiveFind at hr
    rw [List.mem_filter] at hr
    obtain ⟨hr1, hr2⟩ := hr
    rcases List.mem_map.mp hr1 with ⟨⟨i, r2⟩, hmem, hr2eq⟩
    replace hr2eq : r2 = r := hr2eq
    have hget : jget s.db.data i = some r := hr2eq ▸ jget_eq_some_of_mem hc.1 hmem
    obtain ⟨p, t, rfl⟩ : ∃ p t, q = p :: t := by
      cases q with
      | nil => exact absurd rfl hq
      | cons p t => exact ⟨p, t, rfl⟩
    obtain ⟨k0, v0⟩ := p
    have hk0 : jget ((k0, v0) :: t) k0 = some v0 := by simp [jget]
    have hrk : jget r k0 = some v0 := by
      rw [List.all_eq_true] at hr2
      have hdec := hr2 k0 (by simp)
      have heq : jget r k0 = jget ((k0, v0) :: t) k0 := of_decide_eq_true hdec
      rw [heq, hk0]
    have hmidx := hc.2.2.1 i r k0 v0 hget hrk
    obtain ⟨s0, hs0, _⟩ := hmidx
    have hnone := (pickSmallest_spec s.db.indexes ((k0, v0) :: t)).2 hp k0
      (by simp) v0 hk0
    rw [hnone] at hs0
    cases hs0
  | some ids =>
    obtain ⟨k, qv, _, hqv, hids⟩ :=
      (pickSmallest_spec s.db.indexes q).1 ids hp
    simpa using driveFilter_eq_naive s.db q hc k qv ids hqv hids r

/-- The naive filter contains exactly the stored records matching every
predicate. -/
theorem mem_naiveFind (db : DB) (q : Rec)
    (hnd : (db.data.map (fun kv => kv.1)).Nodup) (r : Rec) :
    r ∈ naiveFind db q ↔ (∃ id, jget db.data id = some r) ∧ QMatch r q := by
  unfold naiveFind
  rw [List.mem_filter]
  constructor
  · rintro ⟨hr1, hr2⟩
    rcases List.mem_map.mp hr1 with ⟨⟨i, r2⟩, hmem, hr2eq⟩
    replace hr2eq : r2 = r := hr2eq
    refine ⟨⟨i, hr2eq ▸ jget_eq_some_of_mem hnd hmem⟩, ?_⟩
    intro k v hkv
    rw [List.all_eq_true] at hr2
    have hdec := hr2 k (keys_mem_of_jget_eq_some hkv)
    have heq : jget r k = jget q k := of_decide_eq_true hdec
    rw [heq, hkv]
  · rintro ⟨⟨i, hget⟩, hqm⟩
    refine ⟨List.mem_map.mpr ⟨(i, r), mem_of_jget_eq_some hget, rfl⟩, ?_⟩
    rw [List.all_eq_true]
    intro k hk
    obtain ⟨v, hv⟩ := jget_isSome_of_mem_keys hk
    exact decide_eq_true (by rw [hqm k v hv, hv])

/-! ## Consistency along operation sequences -/

theorem consistent_applyOp (s : Sys) (op : Op) (h : consistent s.db)
    (hs : opSafe s op) : consistent ((applyOp s op).db) := by
  cases op with
  | opCreate obj fresh io => exact consistent_create s obj fresh io h hs.1 hs.2
  | opUpdate id u => exact consistent_update s id u h
  | opDelete id => exact consistent_delete s id h

theorem consistent_applyOps (s : Sys) (ops : List Op) (h : consistent s.db)
    (hs : seqSafe s ops) : consistent ((applyOps s ops).db) := by
  induction ops generalizing s with
  | nil => exact h
  | cons op rest ih =>
    exact ih (applyOp s op) (consistent_applyOp s op h hs.1) hs.2

theorem seqSafe_append_left (s : Sys) (pre suf : List Op)
    (h : seqSafe s (pre ++ suf)) : seqSafe s pre := by
  induction pre generalizing s with
  | nil => exact trivial
  | cons op rest ih => exact ⟨h.1, ih (applyOp s op) h.2⟩

/-- The one-record store is consistent. -/
theorem consistent_sysOne : consistent sysOne.db :=
  consistent_create sysEx0 recB "u1" ioEx (consistent_dbInit 5000)
    (by unfold RecWF; decide) rfl

/-! ## Claim theorems -/

/-- C1 (counterexample): the index-consistency invariant fails as stated.
Starting from a consistent (fresh) store, a `create` whose supplied id
already names a stored record overwrites the record without removing the
old version's index entries: after `create \x7bid:"a", x:1\x7d` followed by
`create \x7bid:"a", x:2\x7d`, the id `"a"` is still in `index["x"][1]`
although the stored record now holds `x = 2`. -/
theorem pookie_c1_counterexample :
    consistent sysEx0.db ∧
    ¬ consistent ((applyOps sysEx0
      [Op.opCreate recA1 "u1" ioEx, Op.opCreate recA2 "u2" ioEx]).db) := by
  refine ⟨consistent_dbInit 5000, ?_⟩
  rintro ⟨-, -, -, hdir2⟩
  obtain ⟨r, hr, hv⟩ := hdir2 "x" (.vNum 1) (.vStr "a")
    ⟨[.vStr "a"], rfl, by decide⟩
  have hcomp : jget ((applyOps sysEx0
      [Op.opCreate recA1 "u1" ioEx, Op.opCreate recA2 "u2" ioEx]).db.data)
      (.vStr "a") = some (jset recA2 "id" (.vStr "a")) := rfl
  rw [hcomp] at hr
  cases hr
  exact absurd hv (by decide)

/-- C1 (amended): for every sequence of create/update/delete starting
from a consistent state, the index-consistency invariant holds after each
operation, provided every create's effective id (the supplied truthy id,
or else the fresh uuid) does not already name a stored record and its
field map is well-formed. -/
theorem pookie_c1_index_consistency (s : Sys) (ops : List Op)
    (hc : consistent s.db) (hsafe : seqSafe s ops) :
    ∀ pre suf, ops = pre ++ suf → consistent ((applyOps s pre).db) := by
  intro pre suf heq
  subst heq
  exact consistent_applyOps s pre hc (seqSafe_append_left s pre suf hsafe)

theorem pookie_c1_index_consistency_witness :
    consistent ((applyOps sysEx0 [Op.opCreate recB "u1" ioEx]).db) :=
  pookie_c1_index_consistency sysEx0 [Op.opCreate recB "u1" ioEx]
    (consistent_dbInit 5000)
    ⟨⟨by unfold RecWF; decide, rfl⟩, trivial⟩
    [Op.opCreate recB "u1" ioEx] [] rfl

/-- C5: for an id not present in the store, `update` returns the `null`
sentinel and `delete` returns `false`, and the entire state (record map,
secondary index, result cache, dirty flag, files) is unchanged. -/
theorem pookie_c5_notfound_sentinel (s : Sys) (id : Value) (p : Rec)
    (h : jget s.db.data id = none) :
    update s id p = (s, none) ∧ delete s id = (s, false) := by
  unfold update delete
  rw [h]
  exact ⟨rfl, rfl⟩

theorem pookie_c5_notfound_sentinel_witness :
    update sysOne (.vStr "zz") pAge31 = (sysOne, none) ∧
    delete sysOne (.vStr "zz") = (sysOne, false) :=
  pookie_c5_notfound_sentinel sysOne (.vStr "zz") pAge31 rfl

/-- C9: `create`, `update` and `delete` leave the result cache exactly
unchanged (no entry is added, removed or invalidated); within this code,
cached results can only disappear through the external LRU cache's
TTL/capacity eviction. -/
theorem pookie_c9_mutations_never_touch_cache :
    (∀ (s : Sys) (obj : Rec) (fresh : String) (io : SaveOracle),
      ((create s obj fresh io).1).db.cache = s.db.cache) ∧
    (∀ (s : Sys) (id : Value) (u : Rec),
      ((update s id u).1).db.cache = s.db.cache) ∧
    (∀ (s : Sys) (id : Value), ((delete s id).1).db.cache = s.db.cache) := by
  refine ⟨fun s obj fresh io => (create_frame s obj fresh io).2.2.1,
    fun s id u => ?_, fun s id => ?_⟩
  · unfold update
    cases jget s.db.data id <;> rfl
  · unfold delete
    cases jget s.db.data id <;> rfl

/-- C10: `create` treats every falsy supplied id (missing, null, empty
string, 0, false) as absent and keys the stored and returned record by
the fresh uuid; a truthy supplied id is kept. -/
theorem pookie_c10_create_falsy_id (s : Sys) (obj : Rec) (fresh : String)
    (io : SaveOracle) :
    ((jget obj "id" = none ∨ jget obj "id" = some .vNull ∨
        jget obj "id" = some (.vStr "") ∨ jget obj "id" = some (.vNum 0) ∨
        jget obj "id" = some (.vBool false)) →
      effId obj fresh = .vStr fresh ∧
      jget ((create s obj fresh io).2.2) "id" = some (.vStr fresh) ∧
      jget (((create s obj fresh io).1).db.data) (.vStr fresh) =
        some ((create s obj fresh io).2.2)) ∧
    (∀ v, jget obj "id" = some v → truthy v = true →
      effId obj fresh = v ∧
      jget ((create s obj fresh io).2.2) "id" = some v ∧
      jget (((create s obj fresh io).1).db.data) v =
        some ((create s obj fresh io).2.2)) := by
  obtain ⟨hdata, _, _, hret⟩ := create_frame s obj fresh io
  constructor
  · intro h
    have heff : effId obj fresh = .vStr fresh := by
      unfold effId
      rcases h with h | h | h | h | h <;> rw [h] <;> simp [truthy]
    refine ⟨heff, ?_, ?_⟩
    · rw [hret, jget_jset, if_pos rfl, heff]
    · rw [hret, hdata, heff, jget_jset, if_pos rfl]
  · intro v hv htruthy
    have heff : effId obj fresh = v := by
      unfold effId
      rw [hv]
      simp [htruthy]
    refine ⟨heff, ?_, ?_⟩
    · rw [hret, jget_jset, if_pos rfl, heff]
    · rw [hret, hdata, heff, jget_jset, if_pos rfl]

theorem pookie_c10_create_falsy_id_witness :
    effId recFalsy "u9" = .vStr "u9" ∧
    jget ((create sysEx0 recFalsy "u9" ioEx).2.2) "id" = some (.vStr "u9") := by
  have h := (pookie_c10_create_falsy_id sysEx0 recFalsy "u9" ioEx).1
    (Or.inr (Or.inr (Or.inl rfl)))
  exact ⟨h.1, h.2.1⟩

/-- C2: on a cache miss over a consistent store, `findByQuery` with a
nonempty predicate map returns exactly the stored records whose fields
equal every predicate's value exactly (strict equality, full
conjunction); with the empty predicate map it returns the empty sequence,
never the set of all records. -/
theorem pookie_c2_query_correctness (s : Sys) (q : Rec)
    (hc : consistent s.db)
    (hmiss : jget s.db.cache (fpQuery q) = none) :
    (q = [] → (findByQuery s q).2 = []) ∧
    (q ≠ [] → ∀ r, r ∈ (findByQuery s q).2 ↔
      ((∃ id, jget s.db.data id = some r) ∧ QMatch r q)) := by
  constructor
  · rintro rfl
    unfold findByQuery
    rw [hmiss]
    rfl
  · intro hq r
    rw [findByQuery_miss_mem s q hc hmiss hq r]
    exact mem_naiveFind s.db q hc.1 r

theorem pookie_c2_query_correctness_witness :
    recBStored ∈ (findByQuery sysOne qAge).2 := by
  refine ((pookie_c2_query_correctness sysOne qAge consistent_sysOne rfl).2
    (by decide) recBStored).mpr ⟨⟨.vStr "u1", rfl⟩, ?_⟩
  intro k v h
  by_cases hk : "age" = k
  · subst hk
    have hv : v = .vNum 25 := by
      have : some (Value.vNum 25) = some v := by
        rw [← h]
        rfl
      exact (Option.some.inj this).symm
    subst hv
    rfl
  · exact absurd h (by simp [qAge, jget, hk])

/-- C3 (counterexample): for the empty predicate map the driving-set
algorithm and the naive full-conjunction filter disagree on a nonempty
store: the algorithm returns the empty sequence while the vacuous
conjunction keeps every stored record. -/
theorem pookie_c3_counterexample :
    consistent sysOne.db ∧
    jget sysOne.db.cache (fpQuery []) = none ∧
    (findByQuery sysOne []).2 = [] ∧
    naiveFind sysOne.db [] = [recBStored] ∧
    (findByQuery sysOne []).2 ≠ naiveFind sysOne.db [] :=
  ⟨consistent_sysOne, rfl, rfl, rfl, by decide⟩

/-- C3 (amended): for every predicate map with at least one key, on a
cache miss over a consistent store, the result of the driving-set
algorithm equals the naive full-conjunction filter over all stored
records — and this holds regardless of which predicate field's index
entry is chosen as the driving candidate set. -/
theorem pookie_c3_heuristic_equivalence (s : Sys) (q : Rec)
    (hc : consistent s.db)
    (hmiss : jget s.db.cache (fpQuery q) = none) (hq : q ≠ []) :
    (∀ r, r ∈ (findByQuery s q).2 ↔ r ∈ naiveFind s.db q) ∧
    (∀ k qv ids, jget q k = some qv →
      idxGet s.db.indexes k qv = some ids →
      ∀ r, r ∈ driveFilter s.db.data ids q ↔ r ∈ naiveFind s.db q) :=
  ⟨fun r => findByQuery_miss_mem s q hc hmiss hq r,
   fun k qv ids hk hids r => driveFilter_eq_naive s.db q hc k qv ids hk hids r⟩

theorem pookie_c3_heuristic_equivalence_witness :
    (recBStored ∈ (findByQuery sysOne qAge).2 ↔
      recBStored ∈ naiveFind sysOne.db qAge) ∧
    (recBStored ∈ driveFilter sysOne.db.data [.vStr "u1"] qAge ↔
      recBStored ∈ naiveFind sysOne.db qAge) :=
  ⟨(pookie_c3_heuristic_equivalence sysOne qAge consistent_sysOne rfl
      (by decide)).1 recBStored,
   (pookie_c3_heuristic_equivalence sysOne qAge consistent_sysOne rfl
      (by decide)).2 "age" (.vNum 25) [.vStr "u1"] rfl rfl recBStored⟩

/-- C4: updating a stored record merges the partial field map over it:
every field named in the partial map takes the partial map's value, every
other field of the old record keeps its value (so no field is removed),
and the merged record is both stored and returned. -/
theorem pookie_c4_update_merge (s : Sys) (id : Value) (p old : Rec)
    (hold : jget s.db.data id = some old) (hp : RecWF p) :
    ∃ updated,
      (update s id p).2 = some updated ∧
      jget (((update s id p).1).db.data) id = some updated ∧
      (∀ k v, jget p k = some v → jget updated k = some v) ∧
      (∀ k, jget p k = none → jget updated k = jget old k) := by
  unfold update
  rw [hold]
  refine ⟨p.foldl (fun r kv => jset r kv.1 kv.2) old, rfl, ?_, ?_, ?_⟩
  · simp only
    rw [jget_jset, if_pos rfl]
  · intro k v hk
    exact jget_merge_of_some old hp hk
  · intro k hk
    exact jget_merge_of_none old hk

theorem pookie_c4_update_merge_witness :
    ∃ updated,
      (update sysOne (.vStr "u1") pAge31).2 = some updated ∧
      jget (((update sysOne (.vStr "u1") pAge31).1).db.data) (.vStr "u1") =
        some updated ∧
      (∀ k v, jget pAge31 k = some v → jget updated k = some v) ∧
      (∀ k, jget pAge31 k = none → jget updated k = jget recBStored k) :=
  pookie_c4_update_merge sysOne (.vStr "u1") pAge31 recBStored rfl
    (by unfold RecWF; decide)

/-! ## Dirty flag and save (helpers for C6) -/

theorem update_sets_dirty (s : Sys) (id : Value) (u : Rec)
    (h : (jget s.db.data id).isSome) : ((update s id u).1).db.dirty = true := by
  cases hx : jget s.db.data id with
  | none => rw [hx] at h; cases h
  | some old =>
    unfold update
    rw [hx]

theorem delete_sets_dirty (s : Sys) (id : Value)
    (h : (jget s.db.data id).isSome) : ((delete s id).1).db.dirty = true := by
  cases hx : jget s.db.data id with
  | none => rw [hx] at h; cases h
  | some obj =>
    unfold delete
    rw [hx]

theorem create_sets_dirty_no_save (s : Sys) (obj : Rec) (fresh : String)
    (io : SaveOracle) (h : createTriggersSave s obj fresh = false) :
    ((create s obj fresh io).1).db.dirty = true := by
  unfold createTriggersSave at h
  simp only [create, h, Bool.false_eq_true, if_false]

theorem save_success (s : Sys) (io : SaveOracle) (hw : io.writeOk = true)
    (hr : io.renameOk = true) :
    (save s io).2 = none ∧ ((save s io).1).db.dirty = false ∧
    ((save s io).1).db.lastSave = io.now ∧ ((save s io).1).fs.temp = none := by
  unfold save
  simp [hw, hr]

theorem save_failure (s : Sys) (io : SaveOracle)
    (h : io.writeOk = false ∨ io.renameOk = false) :
    ((save s io).2).isSome ∧ ((save s io).1).db = s.db ∧
    (io.unlinkOk = true → ((save s io).1).fs.temp = none) := by
  unfold save
  cases hw : io.writeOk with
  | false => cases hu : io.unlinkOk <;> simp [hw, hu]
  | true =>
    cases hr : io.renameOk with
    | false => cases hu : io.unlinkOk <;> simp [hw, hr, hu]
    | true =>
      rcases h with h | h
      · rw [hw] at h; cases h
      · rw [hr] at h; cases h

theorem create_clean_only_by_save (s : Sys) (obj : Rec) (fresh : String)
    (io : SaveOracle) (h : ((create s obj fresh io).1).db.dirty = false) :
    createTriggersSave s obj fresh = true ∧ io.writeOk = true ∧
    io.renameOk = true ∧ (create s obj fresh io).2.1 = none ∧
    ((create s obj fresh io).1).db.lastSave = io.now := by
  cases ht : createTriggersSave s obj fresh with
  | false =>
    rw [create_sets_dirty_no_save s obj fresh io ht] at h
    cases h
  | true =>
    unfold createTriggersSave at ht
    cases hw : io.writeOk with
    | false =>
      exfalso
      have hcontra : ((create s obj fresh io).1).db.dirty = true := by
        simp only [create, ht, if_true, save, hw, Bool.false_eq_true, if_false]
      rw [hcontra] at h
      cases h
    | true =>
      cases hr : io.renameOk with
      | false =>
        exfalso
        have hcontra : ((create s obj fresh io).1).db.dirty = true := by
          simp only [create, ht, if_true, save, hw, hr,
            Bool.false_eq_true, if_false, if_true]
        rw [hcontra] at h
        cases h
      | true =>
        refine ⟨rfl, rfl, rfl, ?_, ?_⟩ <;>
          simp only [create, ht, if_true, save, hw, hr]

/-- C6: the dirty flag is set by every create and every effective
update/delete; it is reset to clean exactly when a save completes
successfully (a create leaves the flag clean only when its size-triggered
save ran and both the write and the rename succeeded); a failed save
reports its error, leaves the whole in-memory state (dirty flag included)
unchanged, and removes the temp file when the unlink succeeds; a
successful save clears the dirty flag and updates the last-save
timestamp. -/
theorem pookie_c6_dirty_save_discipline :
    (∀ (s : Sys) (id : Value) (u : Rec), (jget s.db.data id).isSome →
      ((update s id u).1).db.dirty = true) ∧
    (∀ (s : Sys) (id : Value), (jget s.db.data id).isSome →
      ((delete s id).1).db.dirty = true) ∧
    (∀ (s : Sys) (obj : Rec) (fresh : String) (io : SaveOracle),
      createTriggersSave s obj fresh = false →
      ((create s obj fresh io).1).db.dirty = true) ∧
    (∀ (s : Sys) (obj : Rec) (fresh : String) (io : SaveOracle),
      ((create s obj fresh io).1).db.dirty = false →
      createTriggersSave s obj fresh = true ∧ io.writeOk = true ∧
      io.renameOk = true ∧ (create s obj fresh io).2.1 = none ∧
      ((create s obj fresh io).1).db.lastSave = io.now) ∧
    (∀ (s : Sys) (io : SaveOracle), io.writeOk = true → io.renameOk = true →
      (save s io).2 = none ∧ ((save s io).1).db.dirty = false ∧
      ((save s io).1).db.lastSave = io.now ∧ ((save s io).1).fs.temp = none) ∧
    (∀ (s : Sys) (io : SaveOracle), io.writeOk = false ∨ io.renameOk = false →
      ((save s io).2).isSome ∧ ((save s io).1).db = s.db ∧
      (io.unlinkOk = true → ((save s io).1).fs.temp = none)) :=
  ⟨update_sets_dirty, delete_sets_dirty, create_sets_dirty_no_save,
   create_clean_only_by_save, save_success, save_failure⟩

theorem pookie_c6_dirty_save_discipline_witness :
    ((update sysOne (.vStr "u1") pAge31).1).db.dirty = true ∧
    ((delete sysOne (.vStr "u1")).1).db.dirty = true ∧
    ((create sysOne recB "u7" ioEx).1).db.dirty = true ∧
    (save sysOne ioEx).2 = none ∧
    ((save sysOne ioEx).1).db.dirty = false ∧
    ((save sysOne ioBad).2).isSome ∧
    ((save sysOne ioBad).1).db = sysOne.db :=
  ⟨pookie_c6_dirty_save_discipline.1 sysOne (.vStr "u1") pAge31 rfl,
   pookie_c6_dirty_save_discipline.2.1 sysOne (.vStr "u1") rfl,
   pookie_c6_dirty_save_discipline.2.2.1 sysOne recB "u7" ioEx rfl,
   (pookie_c6_dirty_save_discipline.2.2.2.2.1 sysOne ioEx rfl rfl).1,
   (pookie_c6_dirty_save_discipline.2.2.2.2.1 sysOne ioEx rfl rfl).2.1,
   (pookie_c6_dirty_save_discipline.2.2.2.2.2 sysOne ioBad (Or.inl rfl)).1,
   (pookie_c6_dirty_save_discipline.2.2.2.2.2 sysOne ioBad (Or.inl rfl)).2.1⟩

/-- C7: `load` treats a missing snapshot file as a first run — it resets
the record store to empty and succeeds (on a fresh instance the resulting
store is consistent, hence queryable) — while any other read error and
any decode failure propagate to the caller. -/
theorem pookie_c7_load_error_behavior :
    (∀ (db : DB) (pool : Nat) (dec : List Nat → Option (List Rec)),
      load db pool .enoent dec = ({ db with data := [] }, none)) ∧
    (∀ (b pool : Nat) (dec : List Nat → Option (List Rec)),
      consistent ((load (dbInit b) pool .enoent dec).1)) ∧
    (∀ (db : DB) (pool : Nat) (dec : List Nat → Option (List Rec)),
      load db pool .fsError dec = (db, some .fsError)) ∧
    (∀ (db : DB) (pool : Nat) (dec : List Nat → Option (List Rec))
      (bytes : List Nat), dec bytes = none →
      load db pool (.ok bytes) dec = (db, some .decodeError)) := by
  refine ⟨fun db pool dec => rfl, fun b pool dec => consistent_dbInit b,
    fun db pool dec => rfl, fun db pool dec bytes hdec => ?_⟩
  simp only [load]
  rw [hdec]

theorem pookie_c7_load_error_behavior_witness :
    load (dbInit 5000) 4 .enoent decNone =
      ({ dbInit 5000 with data := [] }, none) ∧
    consistent ((load (dbInit 5000) 4 .enoent decNone).1) ∧
    load (dbInit 5000) 4 .fsError decNone = (dbInit 5000, some .fsError) ∧
    load (dbInit 5000) 4 (.ok [1, 2, 3]) decNone =
      (dbInit 5000, some .decodeError) :=
  ⟨pookie_c7_load_error_behavior.1 (dbInit 5000) 4 decNone,
   pookie_c7_load_error_behavior.2.1 5000 4 decNone,
   pookie_c7_load_error_behavior.2.2.1 (dbInit 5000) 4 decNone,
   pookie_c7_load_error_behavior.2.2.2 (dbInit 5000) 4 decNone [1, 2, 3] rfl⟩

/-- C8: for every record map and every cpu count, building the index by
partitioning the entries into `max(1, cpus/2)` contiguous chunks, indexing
each chunk independently and merging the partial indexes by set union per
(field, value) key yields exactly the index of a single sequential pass
inserting every (field, value, id) triple of every record: the two agree
on which (field, value) entries exist and on the ids each entry holds. -/
theorem pookie_c8_parallel_build_equals_sequential (cpus : Nat)
    (data : JMap Value Rec) :
    (∀ k v, entryPresent (buildIndexes data (workerCount cpus)) k v ↔
      entryPresent (buildIndexChunk data) k v) ∧
    (∀ k v j, memIdx (buildIndexes data (workerCount cpus)) k v j ↔
      memIdx (buildIndexChunk data) k v j) := by
  have hp : 0 < workerCount cpus :=
    Nat.lt_of_lt_of_le Nat.zero_lt_one (le_max_left 1 (cpus / 2))
  exact ⟨fun k v => present_buildIndexes data _ hp k v,
    fun k v j => memIdx_buildIndexes data _ hp k v j⟩

end PookieDB
